import Mathlib

set_option linter.unusedSectionVars false
set_option maxRecDepth 4000

/-!
Verification model of the SIEVE cache implemented in `src/lib.rs`.

The Rust implementation stores every node in a `HashMap<K, Box<Node<K, V>>>`
and threads an intrusive doubly-linked list through the nodes with raw
`NonNull` pointers (`prev`, `next`, `head`, `tail`, `hand`).  Keys are unique
in the map, and every pointer used by the code targets a node that is owned by
the map, so a node's key is a faithful stable handle for a pointer to it.  The
model therefore replaces every `Option<NonNull<Node<K, V>>>` by an `Option K`
and represents the hash map as an association list of nodes (`mfind`, `mset`,
`mremove` model lookup, in-place mutation through a pointer, and
`HashMap::remove`).  Each Lean operation is a direct transcription of the
corresponding Rust method, with `&mut self` methods returning the new cache.
-/

namespace Sieve

/-- Model of `Node<K, V>`: key, value, the two intrusive list links and the
visited bit.  `prev`/`next` hold the key of the linked node instead of a raw
pointer. -/
structure Node (K V : Type) where
  key : K
  value : V
  prev : Option K
  next : Option K
  visited : Bool
deriving DecidableEq

variable {K V : Type} [DecidableEq K]

/-- Model of `Node::new`: fresh node with empty links and `visited = false`. -/
def Node.new (k : K) (v : V) : Node K V :=
  { key := k, value := v, prev := none, next := none, visited := false }

/-- Model of `SieveCache<K, V>`.  The `map` field is the
`HashMap<K, Box<Node<K, V>>>` as an association list of its nodes;
`head`/`tail`/`hand` are the raw node pointers, represented by keys.
`evict_condition` models the optional `EvictDictator` function pointer. -/
structure SieveCache (K V : Type) where
  map : List (Node K V)
  head : Option K
  tail : Option K
  hand : Option K
  capacity : Nat
  len : Nat
  evict_condition : Option (K → V → Bool)

/-- Lookup in the model of the hash map: the node stored under key `k`. -/
def mfind : List (Node K V) → K → Option (Node K V)
  | [], _ => none
  | n :: m, k => if n.key = k then some n else mfind m k

/-- In-place mutation of the node stored under key `k` (a write through a
`NonNull` pointer or a `get_mut` borrow in the source). -/
def mset : List (Node K V) → K → (Node K V → Node K V) → List (Node K V)
  | [], _, _ => []
  | n :: m, k, f => if n.key = k then f n :: m else n :: mset m k f

/-- Model of `HashMap::remove`: drop the node stored under key `k`. -/
def mremove : List (Node K V) → K → List (Node K V)
  | [], _ => []
  | n :: m, k => if n.key = k then m else n :: mremove m k

/-- The keys currently present in the map model. -/
def keys (m : List (Node K V)) : List K := m.map Node.key

/-- Model of `SieveCache::new`.  `HashMap::with_capacity` is only an
allocation hint and has no observable effect, so the model starts from the
empty map. -/
def SieveCache.new (capacity : Nat) : Except String (SieveCache K V) :=
  if capacity = 0 then .error "capacity must be greater than 0"
  else .ok { map := [], head := none, tail := none, hand := none,
             capacity := capacity, len := 0, evict_condition := none }

/-- Model of `SieveCache::with_evict_condition`. -/
def SieveCache.with_evict_condition (capacity : Nat) (evict_dictator : K → V → Bool) :
    Except String (SieveCache K V) :=
  if capacity = 0 then .error "capacity must be greater than 0"
  else .ok { map := [], head := none, tail := none, hand := none,
             capacity := capacity, len := 0, evict_condition := some evict_dictator }

/-- Model of `SieveCache::is_empty`. -/
def SieveCache.is_empty (c : SieveCache K V) : Bool :=
  c.len = 0

/-- Model of `SieveCache::contains_key`.  The receiver is `&mut self` in the
source, so the model returns the cache; the body performs no mutation. -/
def SieveCache.contains_key (c : SieveCache K V) (k : K) : SieveCache K V × Bool :=
  (c, (mfind c.map k).isSome)

/-- Model of `SieveCache::get`: mark the node visited, return its value. -/
def SieveCache.get (c : SieveCache K V) (k : K) : SieveCache K V × Option V :=
  match mfind c.map k with
  | none => (c, none)
  | some n =>
    ({ c with map := mset c.map k (fun nn => { nn with visited := true }) }, some n.value)

/-- Model of `SieveCache::get_mut`.  Identical to `get` up to the mutability
of the returned borrow, which has no counterpart in the value model. -/
def SieveCache.get_mut (c : SieveCache K V) (k : K) : SieveCache K V × Option V :=
  match mfind c.map k with
  | none => (c, none)
  | some n =>
    ({ c with map := mset c.map k (fun nn => { nn with visited := true }) }, some n.value)

/-- Model of `SieveCache::add_node`: link a fresh node in front of `head`
(also setting `tail` when the list was empty).  The node is handed back to the
caller (`insert`), which stores it in the map, mirroring the source where the
box is moved into the map after the pointer links are set. -/
def SieveCache.add_node (c : SieveCache K V) (nd : Node K V) :
    SieveCache K V × Node K V :=
  let nd := { nd with next := c.head, prev := none }
  let m := match c.head with
    | some hk => mset c.map hk (fun n => { n with prev := some nd.key })
    | none => c.map
  let hd := some nd.key
  ({ c with map := m, head := hd, tail := if c.tail.isNone then hd else c.tail }, nd)

/-- Model of `SieveCache::remove_node`: unlink a node from the doubly-linked
list, given the links it carried.  The source reads `prev`/`next` through the
node pointer and patches the neighbours (or `head`/`tail`). -/
def SieveCache.remove_node (c : SieveCache K V) (n : Node K V) : SieveCache K V :=
  let c1 := match n.prev with
    | some pk => { c with map := mset c.map pk (fun m => { m with next := n.next }) }
    | none => { c with head := n.next }
  match n.next with
  | some nk => { c1 with map := mset c1.map nk (fun m => { m with prev := n.prev }) }
  | none => { c1 with tail := n.prev }

/-- The predicate call `self.evict_condition.unwrap()(&key, &value)` from the
eviction loop.  The source only reaches the `unwrap` when the condition is
`Some` (the preceding branch already broke out of the loop for unvisited
entries when no condition is installed, and `&&` short-circuits on visited
entries), so totalising the `None` case with `false` is faithful. -/
def evApply (ec : Option (K → V → Bool)) (n : Node K V) : Bool :=
  match ec with
  | some p => p n.key n.value
  | none => false

/-- Outcome of the `while` loop inside `SieveCache::evict`: either the bound
check `visited >= len` returned `false` from the whole function (`failed`), or
the loop finished with the current cursor value (`exited`), carrying the map
with the visited bits the scan has cleared so far. -/
inductive ScanResult (K V : Type) where
  | failed (m : List (Node K V))
  | exited (m : List (Node K V)) (node : Option K)

/-- The `while` loop of `SieveCache::evict`.  `tl` is `self.tail` (never
modified by the loop), `node` the cursor, and the `Nat` argument is the
remaining budget `len - visited`; the source returns `false` as soon as
`visited >= len`, i.e. when the budget hits `0` while the cursor is non-null.
The cursor pointer always targets a live node under the cache invariants; the
impossible missing-key case is mapped to a failed scan. -/
def evictLoop (ec : Option (K → V → Bool)) (tl : Option K) :
    List (Node K V) → Option K → Nat → ScanResult K V
  | m, none, _ => .exited m none
  | m, some _, 0 => .failed m
  | m, some k, r + 1 =>
    match mfind m k with
    | none => .failed m
    | some n =>
      if !n.visited && ec.isNone then .exited m (some k)
      else if !n.visited && (ec.isSome && evApply ec n) then .exited m (some k)
      else
        evictLoop ec tl (mset m k (fun nn => { nn with visited := false }))
          (if n.prev.isSome then n.prev else tl) r

/-- Number of entries the eviction loop examines (the final value of the
`visited` counter in the source): it is bumped once per iteration, before the
victim test, the clear-and-advance step, or the pointer dereference. -/
def evictLoopSteps (ec : Option (K → V → Bool)) (tl : Option K) :
    List (Node K V) → Option K → Nat → Nat
  | _, none, _ => 0
  | _, some _, 0 => 0
  | m, some k, r + 1 =>
    match mfind m k with
    | none => 1
    | some n =>
      if !n.visited && ec.isNone then 1
      else if !n.visited && (ec.isSome && evApply ec n) then 1
      else
        1 + evictLoopSteps ec tl (mset m k (fun nn => { nn with visited := false }))
          (if n.prev.isSome then n.prev else tl) r

/-- Model of `SieveCache::evict`: run the scan from `hand.or(tail)` with
budget `self.len()`, then, when the loop broke on a victim, update `hand` to
the victim's `prev`, remove the victim from the map and the list and
decrement `len`. -/
def SieveCache.evict (c : SieveCache K V) : SieveCache K V × Bool :=
  match evictLoop c.evict_condition c.tail c.map (c.hand.or c.tail) c.len with
  | .failed m => ({ c with map := m }, false)
  | .exited m none => ({ c with map := m }, true)
  | .exited m (some k) =>
    match mfind m k with
    | none => ({ c with map := m }, true)
    | some n =>
      let c1 : SieveCache K V := { c with map := mremove m k, hand := n.prev }
      let c2 := c1.remove_node n
      ({ c2 with len := c2.len - 1 }, true)

/-- Model of `SieveCache::insert`.  Returns the cache together with the
`(bool, bool)` pair of the source: `(new entry?, succeeded?)`. -/
def SieveCache.insert (c : SieveCache K V) (k : K) (v : V) :
    SieveCache K V × (Bool × Bool) :=
  match mfind c.map k with
  | some _ =>
    ({ c with map := mset c.map k (fun n => { n with visited := true, value := v }) },
      (false, true))
  | none =>
    let ev := if c.capacity ≤ c.len then c.evict else (c, true)
    match ev with
    | (c1, false) => (c1, (false, false))
    | (c1, true) =>
      let st := c1.add_node (Node.new k v)
      ({ st.1 with map := st.2 :: st.1.map, len := st.1.len + 1 }, (true, true))

/-- Model of `SieveCache::remove`: detach the node from map and list, fixing
`hand` when it pointed at the removed node, and return the stored value. -/
def SieveCache.remove (c : SieveCache K V) (k : K) : SieveCache K V × Option V :=
  match mfind c.map k with
  | none => (c, none)
  | some n =>
    let c1 : SieveCache K V := if c.hand = some k then { c with hand := n.prev } else c
    let c2 : SieveCache K V := { c1 with map := mremove c1.map k }
    let c3 := c2.remove_node n
    ({ c3 with len := c3.len - 1 }, some n.value)

/-- The public mutating operations of the cache, used to state invariant
preservation over arbitrary operation sequences. -/
inductive Op (K V : Type) where
  | ins (k : K) (v : V)
  | read (k : K)
  | readMut (k : K)
  | del (k : K)
  | has (k : K)

/-- Apply one operation, keeping the resulting cache state. -/
def applyOp (c : SieveCache K V) : Op K V → SieveCache K V
  | .ins k v => (c.insert k v).1
  | .read k => (c.get k).1
  | .readMut k => (c.get_mut k).1
  | .del k => (c.remove k).1
  | .has k => (c.contains_key k).1

/-- Run a sequence of operations. -/
def run (c : SieveCache K V) (ops : List (Op K V)) : SieveCache K V :=
  ops.foldl applyOp c

/-! ## Specification vocabulary

The definitions below are the language in which the claims are stated: the
victim test, the scan order of the eviction loop, a doubly-linked-segment
predicate and the well-formedness invariant of a cache. -/

/-- Victim test of the scan: unvisited, and either no predicate is installed
or the predicate accepts the entry.  `isVictim ec n = true` exactly when one
of the two `break`s of the source loop fires on `n`. -/
def isVictim (ec : Option (K → V → Bool)) (n : Node K V) : Bool :=
  !n.visited && (ec.isNone || (ec.isSome && evApply ec n))

/-- Victim test applied to the entry stored under `k`. -/
def victimAt (ec : Option (K → V → Bool)) (m : List (Node K V)) (k : K) : Bool :=
  match mfind m k with
  | some n => isVictim ec n
  | none => false

/-- First victim of a scan order with respect to map state `m`. -/
def firstVictim (ec : Option (K → V → Bool)) (m : List (Node K V))
    (order : List K) : Option K :=
  order.find? (victimAt ec m)

/-- Head of a key list, with a fallback link. -/
def headOr (ks : List K) (nx : Option K) : Option K :=
  match ks with
  | [] => nx
  | k :: _ => some k

/-- Last element of a key list, with a fallback link. -/
def lastOr (ks : List K) (p : Option K) : Option K :=
  match ks.getLast? with
  | some l => some l
  | none => p

/-- The prefix of `ks` up to and including the first occurrence of `h`. -/
def upTo : List K → K → List K
  | [], _ => []
  | k :: ks, h => if k = h then [k] else k :: upTo ks h

/-- The suffix of `ks` strictly after the first occurrence of `h`. -/
def afterKey : List K → K → List K
  | [], _ => []
  | k :: ks, h => if k = h then ks else afterKey ks h

/-- The order in which the eviction scan examines the entries, given the list
`ks` of keys from head to tail and the initial cursor: from the cursor toward
the head, then wrapping to the tail and continuing toward the head. -/
def scanOrder (ks : List K) (start : Option K) : List K :=
  match start with
  | none => ks.reverse
  | some h => (upTo ks h).reverse ++ (afterKey ks h).reverse

/-- `DSeg m p ks nx` states that the keys `ks` form a doubly-linked segment
inside map `m`: the first node's `prev` is `p`, consecutive nodes point at
each other, and the last node's `next` is `nx`. -/
def DSeg (m : List (Node K V)) : Option K → List K → Option K → Prop
  | _, [], _ => True
  | p, k :: ks, nx =>
    ∃ n, mfind m k = some n ∧ n.prev = p ∧ n.next = headOr ks nx ∧
      DSeg m (some k) ks nx

/-- Nodes equal except possibly in their visited bit. -/
def eqButVis (n n' : Node K V) : Prop :=
  n'.key = n.key ∧ n'.value = n.value ∧ n'.prev = n.prev ∧ n'.next = n.next

/-- Lifts `eqButVis` to lookup results. -/
def oeqButVis : Option (Node K V) → Option (Node K V) → Prop
  | none, none => True
  | some n, some n' => eqButVis n n'
  | _, _ => False

/-- Two map states with the same keys whose entries differ at most in their
visited bits (the only mutation the eviction scan performs before removal). -/
def ShapeEq (m m' : List (Node K V)) : Prop :=
  keys m' = keys m ∧ ∀ k, oeqButVis (mfind m k) (mfind m' k)

/-- Value stored under `k`. -/
def valAt (m : List (Node K V)) (k : K) : Option V :=
  (mfind m k).map Node.value

/-- Visited bit of the entry stored under `k`. -/
def visAt (m : List (Node K V)) (k : K) : Option Bool :=
  (mfind m k).map Node.visited

/-- Well-formedness of the map together with the list structure: `ks` lists
the keys from head to tail, without duplicates, fully linked, and the map
contains exactly these keys. -/
structure ListWF (m : List (Node K V)) (hd tl : Option K) (ks : List K) : Prop where
  nodup : ks.Nodup
  seg : DSeg m none ks none
  head_eq : hd = ks.head?
  tail_eq : tl = ks.getLast?
  perm : List.Perm (keys m) ks

/-- The cache invariants of the specification: a well-formed list/map pair,
`len` equal to the number of entries and bounded by a positive capacity, and
`hand` (when present) referencing a live entry of the list. -/
structure WF (c : SieveCache K V) (ks : List K) : Prop where
  lw : ListWF c.map c.head c.tail ks
  len_eq : c.len = ks.length
  len_le : c.len ≤ c.capacity
  cap_pos : 0 < c.capacity
  hand_mem : ∀ h, c.hand = some h → h ∈ ks

/-! ## Map lemmas -/

theorem mfind_key {m : List (Node K V)} {k : K} {n : Node K V}
    (h : mfind m k = some n) : n.key = k := by
  induction m with
  | nil => simp [mfind] at h
  | cons a m ih =>
    by_cases hk : a.key = k
    · rw [mfind, if_pos hk] at h
      injection h with h
      subst h
      exact hk
    · rw [mfind, if_neg hk] at h
      exact ih h

theorem mfind_mset (m : List (Node K V)) (k : K) (f : Node K V → Node K V)
    (hf : ∀ n, (f n).key = n.key) (k' : K) :
    mfind (mset m k f) k' = if k' = k then (mfind m k).map f else mfind m k' := by
  induction m with
  | nil => simp [mfind, mset]
  | cons a m ih =>
    by_cases hk : a.key = k
    · by_cases hk' : k' = k
      · subst hk'
        simp [mfind, mset, hk, hf]
      · have hak' : ¬ a.key = k' := by
          rw [hk]; exact fun hh => hk' hh.symm
        have hke : ¬ k = k' := fun hh => hk' hh.symm
        simp [mfind, mset, hk, hf, hk', hak', hke]
    · by_cases hk' : a.key = k'
      · have hne : ¬ k' = k := fun h => hk (h ▸ hk')
        simp [mfind, mset, hk, hk', hne]
      · simp [mfind, mset, hk, hk', ih]

theorem mfind_mset_self (m : List (Node K V)) (k : K) (f : Node K V → Node K V)
    (hf : ∀ n, (f n).key = n.key) :
    mfind (mset m k f) k = (mfind m k).map f := by
  simp [mfind_mset m k f hf]

theorem mfind_mset_ne (m : List (Node K V)) (k : K) (f : Node K V → Node K V)
    (hf : ∀ n, (f n).key = n.key) {k' : K} (h : k' ≠ k) :
    mfind (mset m k f) k' = mfind m k' := by
  simp [mfind_mset m k f hf, h]

theorem keys_mset (m : List (Node K V)) (k : K) (f : Node K V → Node K V)
    (hf : ∀ n, (f n).key = n.key) : keys (mset m k f) = keys m := by
  induction m with
  | nil => rfl
  | cons a m ih =>
    by_cases hk : a.key = k
    · simp [keys, mset, hk, hf]
    · simp only [mset, if_neg hk]
      simp [keys] at ih ⊢
      exact ih

theorem mfind_eq_none_iff {m : List (Node K V)} {k : K} :
    mfind m k = none ↔ k ∉ keys m := by
  induction m with
  | nil => simp [mfind, keys]
  | cons a m ih =>
    by_cases hk : a.key = k
    · simp [mfind, keys, hk]
    · have : ¬ k = a.key := fun h => hk h.symm
      simp [mfind, keys, hk, this, ih]

theorem mfind_isSome_of_mem {m : List (Node K V)} {k : K} (h : k ∈ keys m) :
    ∃ n, mfind m k = some n := by
  rcases ho : mfind m k with _ | n
  · exact absurd (mfind_eq_none_iff.mp ho) (not_not.mpr h)
  · exact ⟨n, rfl⟩

theorem mfind_mremove_ne {m : List (Node K V)} {k k' : K} (h : k' ≠ k) :
    mfind (mremove m k) k' = mfind m k' := by
  induction m with
  | nil => rfl
  | cons a m ih =>
    by_cases hk : a.key = k
    · have hak' : ¬ a.key = k' := by
        rw [hk]; exact fun hh => h hh.symm
      have hke : ¬ k = k' := fun hh => h hh.symm
      simp [mremove, mfind, hk, hak', hke]
    · by_cases hk' : a.key = k'
      · simp [mremove, mfind, hk, hk', h]
      · simp [mremove, mfind, hk, hk', h, ih]

theorem msplit {m : List (Node K V)} {k : K} {n : Node K V}
    (h : mfind m k = some n) :
    ∃ m₁ m₂, m = m₁ ++ n :: m₂ ∧ k ∉ keys m₁ ∧ mremove m k = m₁ ++ m₂ := by
  induction m with
  | nil => simp [mfind] at h
  | cons a m ih =>
    by_cases hk : a.key = k
    · rw [mfind, if_pos hk] at h
      injection h with h
      subst h
      exact ⟨[], m, by simp, by simp [keys], by simp [mremove, hk]⟩
    · rw [mfind, if_neg hk] at h
      obtain ⟨m₁, m₂, hm, hk₁, hr⟩ := ih h
      refine ⟨a :: m₁, m₂, by simp [hm], ?_, by simp [mremove, hk, hr]⟩
      intro hmem
      rcases (by simpa [keys] using hmem : k = a.key ∨ k ∈ keys m₁) with h1 | h1
      · exact hk h1.symm
      · exact hk₁ h1

/-! ## Segment lemmas -/

theorem headOr_append {as bs : List K} {nx : Option K} :
    headOr (as ++ bs) nx = headOr as (headOr bs nx) := by
  cases as <;> rfl

theorem headOr_none {ks : List K} : headOr ks none = ks.head? := by
  cases ks <;> rfl

theorem lastOr_cons {a : K} {ks : List K} {p : Option K} :
    lastOr (a :: ks) p = lastOr ks (some a) := by
  cases ks with
  | nil => rfl
  | cons b l =>
    rcases h : (b :: l).getLast? with _ | x
    · simp at h
    · rw [lastOr, lastOr, List.getLast?_cons_cons, h]

theorem lastOr_none {ks : List K} : lastOr ks none = ks.getLast? := by
  rcases h : ks.getLast? with _ | l <;> simp [lastOr, h]

theorem dseg_nil {m : List (Node K V)} {p nx : Option K} : DSeg m p [] nx := by
  rw [DSeg]
  trivial

theorem dseg_cons {m : List (Node K V)} {p nx : Option K} {k : K} {ks : List K} :
    DSeg m p (k :: ks) nx ↔
      ∃ n, mfind m k = some n ∧ n.prev = p ∧ n.next = headOr ks nx ∧
        DSeg m (some k) ks nx := by
  rw [DSeg]

theorem dseg_congr {m m' : List (Node K V)} {p nx : Option K} {ks : List K}
    (h : ∀ a ∈ ks, mfind m' a = mfind m a) :
    DSeg m p ks nx → DSeg m' p ks nx := by
  induction ks generalizing p with
  | nil => intro _; exact dseg_nil
  | cons k ks ih =>
    intro hd
    obtain ⟨n, hn, hp, hx, hs⟩ := dseg_cons.mp hd
    exact dseg_cons.mpr ⟨n, (h k (by simp)).trans hn, hp, hx,
      ih (fun a ha => h a (by simp [ha])) hs⟩

theorem dseg_append {m : List (Node K V)} {p nx : Option K} {as bs : List K} :
    DSeg m p (as ++ bs) nx ↔
      DSeg m p as (headOr bs nx) ∧ DSeg m (lastOr as p) bs nx := by
  induction as generalizing p with
  | nil =>
    simp only [List.nil_append, lastOr]
    exact ⟨fun h => ⟨dseg_nil, h⟩, fun h => h.2⟩
  | cons a as ih =>
    constructor
    · intro hd
      obtain ⟨n, hn, hp, hx, hs⟩ := dseg_cons.mp hd
      obtain ⟨h1, h2⟩ := ih.mp hs
      refine ⟨dseg_cons.mpr ⟨n, hn, hp, ?_, h1⟩, by rwa [lastOr_cons]⟩
      simp only [List.append_eq] at hx
      rwa [headOr_append] at hx
    · rintro ⟨h1, h2⟩
      obtain ⟨n, hn, hp, hx, hs⟩ := dseg_cons.mp h1
      refine dseg_cons.mpr ⟨n, hn, hp, ?_, ih.mpr ⟨hs, by rwa [lastOr_cons] at h2⟩⟩
      simp only [List.append_eq]
      rwa [headOr_append]

theorem dseg_find {m : List (Node K V)} {p nx : Option K} {ks : List K} {k : K}
    (h : DSeg m p ks nx) (hk : k ∈ ks) : ∃ n, mfind m k = some n := by
  induction ks generalizing p with
  | nil => cases hk
  | cons a l ih =>
    obtain ⟨n, hn, _, _, hs⟩ := dseg_cons.mp h
    rcases List.mem_cons.mp hk with rfl | hk'
    · exact ⟨n, hn⟩
    · exact ih hs hk'

theorem dseg_at {m : List (Node K V)} {ks as bs : List K} {k : K} {n : Node K V}
    (hseg : DSeg m none ks none) (h : ks = as ++ k :: bs)
    (hn : mfind m k = some n) :
    n.prev = lastOr as none ∧ n.next = headOr bs none := by
  subst h
  obtain ⟨_, h2⟩ := dseg_append.mp hseg
  obtain ⟨n', hn', hp, hx, _⟩ := dseg_cons.mp h2
  have he : n = n' := by
    rw [hn] at hn'
    exact Option.some.inj hn'
  subst he
  exact ⟨hp, hx⟩

theorem dseg_change_nx {m m' : List (Node K V)} {p nx nx' : Option K} {as : List K}
    (hd : DSeg m p as nx)
    (hmid : ∀ a ∈ as.dropLast, mfind m' a = mfind m a)
    (hlast : ∀ l, as.getLast? = some l →
      ∃ n₀, mfind m l = some n₀ ∧ mfind m' l = some { n₀ with next := nx' }) :
    DSeg m' p as nx' := by
  induction as generalizing p with
  | nil => exact dseg_nil
  | cons a as ih =>
    obtain ⟨n, hn, hp, hx, hs⟩ := dseg_cons.mp hd
    cases as with
    | nil =>
      obtain ⟨n₀, hn₀, hm'⟩ := hlast a (by simp)
      have he : n = n₀ := by
        rw [hn] at hn₀
        exact Option.some.inj hn₀
      subst he
      exact dseg_cons.mpr ⟨{ n with next := nx' }, hm', hp, rfl, dseg_nil⟩
    | cons b bs =>
      refine dseg_cons.mpr ⟨n, ?_, hp, hx, ?_⟩
      · rw [hmid a (by rw [List.dropLast_cons₂]; simp)]
        exact hn
      · refine ih hs ?_ ?_
        · intro x hx'
          exact hmid x (by rw [List.dropLast_cons₂]; simp [hx'])
        · intro l hl
          exact hlast l (by rwa [List.getLast?_cons_cons])

theorem dseg_change_p {m m' : List (Node K V)} {p p' nx : Option K} {b : K}
    {bs : List K}
    (hd : DSeg m p (b :: bs) nx)
    (hrest : ∀ a ∈ bs, mfind m' a = mfind m a)
    (hb : ∃ n₀, mfind m b = some n₀ ∧ mfind m' b = some { n₀ with prev := p' }) :
    DSeg m' p' (b :: bs) nx := by
  obtain ⟨n, hn, _, hx, hs⟩ := dseg_cons.mp hd
  obtain ⟨n₀, hn₀, hm'⟩ := hb
  have he : n = n₀ := by
    rw [hn] at hn₀
    exact Option.some.inj hn₀
  subst he
  exact dseg_cons.mpr ⟨{ n with prev := p' }, hm', rfl, hx, dseg_congr hrest hs⟩

/-! ## Shape equality lemmas -/

theorem eqButVis_refl (n : Node K V) : eqButVis n n := ⟨rfl, rfl, rfl, rfl⟩

theorem eqButVis_trans {n₁ n₂ n₃ : Node K V} (h : eqButVis n₁ n₂)
    (h' : eqButVis n₂ n₃) : eqButVis n₁ n₃ :=
  ⟨h'.1.trans h.1, h'.2.1.trans h.2.1, h'.2.2.1.trans h.2.2.1, h'.2.2.2.trans h.2.2.2⟩

theorem shapeEq_refl (m : List (Node K V)) : ShapeEq m m := by
  refine ⟨rfl, fun k => ?_⟩
  cases mfind m k with
  | none => exact trivial
  | some n => exact eqButVis_refl n

theorem shapeEq_trans {m₁ m₂ m₃ : List (Node K V)} (h : ShapeEq m₁ m₂)
    (h' : ShapeEq m₂ m₃) : ShapeEq m₁ m₃ := by
  refine ⟨h'.1.trans h.1, fun k => ?_⟩
  have e1 := h.2 k
  have e2 := h'.2 k
  cases h1 : mfind m₁ k <;> cases h2 : mfind m₂ k <;> cases h3 : mfind m₃ k <;>
    rw [h1, h2] at e1 <;> rw [h2, h3] at e2 <;>
    first
      | exact trivial
      | exact e1.elim
      | exact e2.elim
      | exact eqButVis_trans e1 e2

theorem oeqButVis_some {o o' : Option (Node K V)} {n : Node K V}
    (h : oeqButVis o o') (ho : o = some n) :
    ∃ n', o' = some n' ∧ eqButVis n n' := by
  subst ho
  cases o' with
  | none => exact h.elim
  | some n' => exact ⟨n', rfl, h⟩

theorem oeqButVis_none {o o' : Option (Node K V)}
    (h : oeqButVis o o') (ho : o = none) : o' = none := by
  subst ho
  cases o' with
  | none => rfl
  | some n' => exact h.elim

theorem shapeEq_mset_vis (m : List (Node K V)) (k : K) (b : Bool) :
    ShapeEq m (mset m k (fun nn => { nn with visited := b })) := by
  refine ⟨keys_mset m k (fun nn => { nn with visited := b }) (fun n => rfl), fun k' => ?_⟩
  rw [mfind_mset m k (fun nn => { nn with visited := b }) (fun n => rfl)]
  by_cases hk : k' = k
  · subst hk
    rw [if_pos rfl]
    cases mfind m k' with
    | none => exact trivial
    | some n => exact ⟨rfl, rfl, rfl, rfl⟩
  · rw [if_neg hk]
    cases mfind m k' with
    | none => exact trivial
    | some n => exact eqButVis_refl n

theorem dseg_shapeEq {m m' : List (Node K V)} {p nx : Option K} {ks : List K}
    (h : ShapeEq m m') : DSeg m p ks nx → DSeg m' p ks nx := by
  induction ks generalizing p with
  | nil => intro _; exact dseg_nil
  | cons k ks ih =>
    intro hd
    obtain ⟨n, hn, hp, hx, hs⟩ := dseg_cons.mp hd
    obtain ⟨n', hn', he⟩ := oeqButVis_some (h.2 k) hn
    exact dseg_cons.mpr ⟨n', hn', he.2.2.1.trans hp, he.2.2.2.trans hx, ih hs⟩

theorem listWF_shapeEq {m m' : List (Node K V)} {hd tl : Option K} {ks : List K}
    (h : ShapeEq m m') (lw : ListWF m hd tl ks) : ListWF m' hd tl ks :=
  ⟨lw.nodup, dseg_shapeEq h lw.seg, lw.head_eq, lw.tail_eq, h.1 ▸ lw.perm⟩

theorem shapeEq_valAt {m m' : List (Node K V)} (h : ShapeEq m m') (k : K) :
    valAt m' k = valAt m k := by
  have hk := h.2 k
  rw [valAt, valAt]
  cases h1 : mfind m k with
  | none => rw [oeqButVis_none hk h1]
  | some n =>
    obtain ⟨n', hn', he⟩ := oeqButVis_some hk h1
    rw [hn']
    simp [he.2.1]

theorem shapeEq_mfind_isSome {m m' : List (Node K V)} (h : ShapeEq m m') (k : K) :
    (mfind m' k).isSome = (mfind m k).isSome := by
  have hk := h.2 k
  cases h1 : mfind m k with
  | none => rw [oeqButVis_none hk h1]
  | some n =>
    obtain ⟨n', hn', _⟩ := oeqButVis_some hk h1
    simp [hn']

/-! ## Unlinking a node -/

theorem remove_node_hand (c : SieveCache K V) (n : Node K V) :
    (c.remove_node n).hand = c.hand := by
  rw [SieveCache.remove_node]
  cases n.prev <;> cases n.next <;> rfl

theorem remove_node_len (c : SieveCache K V) (n : Node K V) :
    (c.remove_node n).len = c.len := by
  rw [SieveCache.remove_node]
  cases n.prev <;> cases n.next <;> rfl

theorem remove_node_capacity (c : SieveCache K V) (n : Node K V) :
    (c.remove_node n).capacity = c.capacity := by
  rw [SieveCache.remove_node]
  cases n.prev <;> cases n.next <;> rfl

theorem remove_node_evict_condition (c : SieveCache K V) (n : Node K V) :
    (c.remove_node n).evict_condition = c.evict_condition := by
  rw [SieveCache.remove_node]
  cases n.prev <;> cases n.next <;> rfl

theorem remove_node_map (c : SieveCache K V) (n : Node K V) :
    (c.remove_node n).map =
      (match n.next with
       | some nk =>
         mset (match n.prev with
               | some pk => mset c.map pk (fun x => { x with next := n.next })
               | none => c.map) nk (fun x => { x with prev := n.prev })
       | none =>
         match n.prev with
         | some pk => mset c.map pk (fun x => { x with next := n.next })
         | none => c.map) := by
  rw [SieveCache.remove_node]
  cases n.prev <;> cases n.next <;> rfl

theorem remove_node_head (c : SieveCache K V) (n : Node K V) :
    (c.remove_node n).head =
      (match n.prev with | some _ => c.head | none => n.next) := by
  rw [SieveCache.remove_node]
  cases n.prev <;> cases n.next <;> rfl

theorem remove_node_tail (c : SieveCache K V) (n : Node K V) :
    (c.remove_node n).tail =
      (match n.next with | some _ => c.tail | none => n.prev) := by
  rw [SieveCache.remove_node]
  cases n.prev <;> cases n.next <;> rfl

theorem keys_append {m₁ m₂ : List (Node K V)} :
    keys (m₁ ++ m₂) = keys m₁ ++ keys m₂ := by
  simp [keys]

theorem mem_of_headOr_none {bs : List K} {b : K} (h : headOr bs none = some b) :
    b ∈ bs := by
  cases bs with
  | nil => cases h
  | cons x l =>
    rw [headOr] at h
    injection h with h
    simp [h]

theorem mem_of_lastOr_none {as : List K} {l : K} (h : lastOr as none = some l) :
    l ∈ as := by
  rw [lastOr_none] at h
  obtain ⟨ys, rfl⟩ := List.getLast?_eq_some_iff.mp h
  simp

theorem getLast?_append_cons {l₁ l₂ : List K} {b : K} :
    (l₁ ++ b :: l₂).getLast? = (b :: l₂).getLast? := by
  rcases hgl : (b :: l₂).getLast? with _ | x
  · simp at hgl
  · simp [hgl]

theorem getLast_not_mem_dropLast {as : List K} {l : K} (nd : as.Nodup)
    (h : as.getLast? = some l) : l ∉ as.dropLast := by
  obtain ⟨ys, rfl⟩ := List.getLast?_eq_some_iff.mp h
  rw [List.dropLast_concat]
  intro hmem
  exact (List.nodup_append.mp nd).2.2 hmem (by simp)

theorem mfind_mset_next (m : List (Node K V)) (q : K) (x : Option K) (k' : K) :
    mfind (mset m q (fun nn => { nn with next := x })) k' =
      if k' = q then (mfind m q).map (fun nn => { nn with next := x })
      else mfind m k' :=
  mfind_mset m q (fun nn => { nn with next := x }) (fun _ => rfl) k'

theorem mfind_mset_prev (m : List (Node K V)) (q : K) (x : Option K) (k' : K) :
    mfind (mset m q (fun nn => { nn with prev := x })) k' =
      if k' = q then (mfind m q).map (fun nn => { nn with prev := x })
      else mfind m k' :=
  mfind_mset m q (fun nn => { nn with prev := x }) (fun _ => rfl) k'

theorem keys_mset_next (m : List (Node K V)) (q : K) (x : Option K) :
    keys (mset m q (fun nn => { nn with next := x })) = keys m :=
  keys_mset m q (fun nn => { nn with next := x }) (fun _ => rfl)

theorem keys_mset_prev (m : List (Node K V)) (q : K) (x : Option K) :
    keys (mset m q (fun nn => { nn with prev := x })) = keys m :=
  keys_mset m q (fun nn => { nn with prev := x }) (fun _ => rfl)

theorem detach_spec (c : SieveCache K V) {ks as bs : List K} {k : K}
    {n : Node K V} {c' : SieveCache K V}
    (lw : ListWF c.map c.head c.tail ks)
    (hks : ks = as ++ k :: bs)
    (hn : mfind c.map k = some n)
    (hc' : c' = SieveCache.remove_node { c with map := mremove c.map k } n) :
    ListWF c'.map c'.head c'.tail (as ++ bs) ∧
    mfind c'.map k = none ∧
    (∀ k', k' ≠ k →
      valAt c'.map k' = valAt c.map k' ∧ visAt c'.map k' = visAt c.map k') ∧
    n.prev = lastOr as none ∧ n.next = headOr bs none := by
  subst hks
  have hkey : n.key = k := mfind_key hn
  have nd := lw.nodup
  obtain ⟨ndas, ndkbs, hdisj⟩ := List.nodup_append.mp nd
  have hkbs : k ∉ bs := (List.nodup_cons.mp ndkbs).1
  have ndbs : bs.Nodup := (List.nodup_cons.mp ndkbs).2
  have hkas : k ∉ as := fun h => hdisj h (List.mem_cons_self k bs)
  have hdisj' : as.Disjoint bs := by
    intro a ha hb
    exact hdisj ha (List.mem_cons_of_mem k hb)
  obtain ⟨hprev, hnext⟩ := dseg_at lw.seg rfl hn
  obtain ⟨m₁, m₂, hmsplit, hk₁, hrem⟩ := msplit hn
  have ndkeys : (keys c.map).Nodup := lw.perm.nodup_iff.mpr nd
  have hkeysm : keys c.map = keys m₁ ++ k :: keys m₂ := by
    rw [hmsplit, keys_append]
    simp [keys, hkey]
  have hremkeys : keys (mremove c.map k) = keys m₁ ++ keys m₂ := by
    rw [hrem, keys_append]
  have hremnone : mfind (mremove c.map k) k = none := by
    apply mfind_eq_none_iff.mpr
    rw [hremkeys]
    rw [hkeysm] at ndkeys
    obtain ⟨_, ndk2, hdj⟩ := List.nodup_append.mp ndkeys
    intro hmem
    rcases List.mem_append.mp hmem with h1 | h1
    · exact hdj h1 (List.mem_cons_self k (keys m₂))
    · exact (List.nodup_cons.mp ndk2).1 h1
  have hp_as : ∀ pk, n.prev = some pk → pk ∈ as := by
    intro pk h
    exact mem_of_lastOr_none (hprev.symm.trans h)
  have hx_bs : ∀ nk, n.next = some nk → nk ∈ bs := by
    intro nk h
    exact mem_of_headOr_none (hnext.symm.trans h)
  have hp_ne : ∀ pk, n.prev = some pk → pk ≠ k := by
    intro pk h he
    exact hkas (he ▸ hp_as pk h)
  have hx_ne : ∀ nk, n.next = some nk → nk ≠ k := by
    intro nk h he
    exact hkbs (he ▸ hx_bs nk h)
  have hpx_ne : ∀ pk nk, n.prev = some pk → n.next = some nk → pk ≠ nk := by
    intro pk nk h1 h2 he
    exact hdisj' (hp_as pk h1) (he ▸ hx_bs nk h2)
  subst hc'
  have hfind : ∀ k',
      mfind (SieveCache.remove_node { c with map := mremove c.map k } n).map k' =
        if k' = k then none
        else if n.prev = some k' then
          (mfind c.map k').map (fun nn => { nn with next := n.next })
        else if n.next = some k' then
          (mfind c.map k').map (fun nn => { nn with prev := n.prev })
        else mfind c.map k' := by
    intro k'
    rw [remove_node_map]
    rcases hpx : n.prev with _ | pk <;> rcases hnx : n.next with _ | nk
    · by_cases hk' : k' = k
      · subst hk'
        simp [hremnone]
      · simp [hk', mfind_mremove_ne hk']
    · have hnk := hx_ne nk hnx
      by_cases hk' : k' = k
      · subst hk'
        have : ¬ k' = nk := fun h => hnk (h ▸ rfl)
        simp [mfind_mset_prev, this, hremnone]
      · by_cases hk2 : k' = nk
        · subst hk2
          simp [mfind_mset_prev, hk', mfind_mremove_ne hk']
        · have hk2' : ¬ nk = k' := fun h => hk2 h.symm
          simp [mfind_mset_prev, hk', hk2, hk2', mfind_mremove_ne hk']
    · have hpk := hp_ne pk hpx
      by_cases hk' : k' = k
      · subst hk'
        have : ¬ k' = pk := fun h => hpk (h ▸ rfl)
        simp [mfind_mset_next, this, hremnone]
      · by_cases hk2 : k' = pk
        · subst hk2
          simp [mfind_mset_next, hk', mfind_mremove_ne hk']
        · have hk2' : ¬ pk = k' := fun h => hk2 h.symm
          simp [mfind_mset_next, hk', hk2, hk2', mfind_mremove_ne hk']
    · have hpk := hp_ne pk hpx
      have hnk := hx_ne nk hnx
      have hpknk : pk ≠ nk := hpx_ne pk nk hpx hnx
      by_cases hk' : k' = k
      · subst hk'
        have h1 : ¬ k' = pk := fun h => hpk (h ▸ rfl)
        have h2 : ¬ k' = nk := fun h => hnk (h ▸ rfl)
        simp [mfind_mset_prev, mfind_mset_next, h1, h2, hremnone]
      · by_cases hk2 : k' = pk
        · subst hk2
          have h2 : ¬ k' = nk := hpknk
          have h2' : ¬ nk = k' := fun h => h2 h.symm
          simp [mfind_mset_prev, mfind_mset_next, h2, h2', hk',
            mfind_mremove_ne hk']
        · by_cases hk3 : k' = nk
          · subst hk3
            have h2 : ¬ k' = pk := hk2
            have h2' : ¬ pk = k' := fun h => h2 h.symm
            simp [mfind_mset_prev, mfind_mset_next, h2, h2', hk',
              mfind_mremove_ne hk']
          · have hk2' : ¬ pk = k' := fun h => hk2 h.symm
            have hk3' : ¬ nk = k' := fun h => hk3 h.symm
            simp [mfind_mset_prev, mfind_mset_next, hk', hk2, hk3, hk2', hk3',
              mfind_mremove_ne hk']
  refine ⟨?_, ?_, ?_, hprev, hnext⟩
  · -- ListWF of the detached state
    obtain ⟨S1, S2'⟩ := dseg_append.mp lw.seg
    obtain ⟨n2, hn2, _, _, S3⟩ := dseg_cons.mp S2'
    refine ⟨List.nodup_append.mpr ⟨ndas, ndbs, hdisj'⟩, ?_, ?_, ?_, ?_⟩
    · -- linked segment
      apply dseg_append.mpr
      constructor
      · -- the `as` part, with its last node retargeted at the head of `bs`
        refine dseg_change_nx S1 ?_ ?_
        · intro a ha
          have haas : a ∈ as := List.mem_of_mem_dropLast ha
          have h1 : a ≠ k := fun h => hkas (h ▸ haas)
          have h2 : ¬ n.prev = some a := by
            intro h
            have := hprev.symm.trans h
            rw [lastOr_none] at this
            exact getLast_not_mem_dropLast ndas this ha
          have h3 : ¬ n.next = some a := by
            intro h
            exact hdisj' haas (hx_bs a h)
          rw [hfind a]
          simp [h1, h2, h3]
        · intro l hl
          have hlas : l ∈ as := by
            obtain ⟨ys, hys⟩ := List.getLast?_eq_some_iff.mp hl
            rw [hys]
            simp
          obtain ⟨n₀, hn₀⟩ := dseg_find S1 hlas
          refine ⟨n₀, hn₀, ?_⟩
          have hpl : n.prev = some l := by
            rw [hprev, lastOr_none, hl]
          have h1 : l ≠ k := fun h => hkas (h ▸ hlas)
          rw [hfind l]
          simp [h1, hpl, hn₀, hnext]
      · -- the `bs` part, with its first node's prev retargeted at the last of `as`
        rw [lastOr_none] at hprev ⊢
        cases bs with
        | nil => exact dseg_nil
        | cons b bs' =>
          have hxb : n.next = some b := by
            rw [hnext]
            rfl
          refine dseg_change_p S3 ?_ ?_
          · intro a ha
            have habs : a ∈ b :: bs' := List.mem_cons_of_mem b ha
            have h1 : a ≠ k := fun h => hkbs (h ▸ habs)
            have h2 : ¬ n.prev = some a := by
              intro h
              exact hdisj' (hp_as a h) habs
            have h3 : ¬ n.next = some a := by
              intro h
              have hab : a = b := by
                have := (hxb.symm.trans h)
                exact (Option.some.inj this).symm
              subst hab
              exact (List.nodup_cons.mp ndbs).1 ha
            rw [hfind a]
            simp [h1, h2, h3]
          · obtain ⟨n₀, hn₀⟩ := dseg_find S3 (List.mem_cons_self b bs')
            refine ⟨n₀, hn₀, ?_⟩
            have h1 : b ≠ k := fun h => hkbs (h ▸ List.mem_cons_self b bs')
            have h2 : ¬ n.prev = some b := by
              intro h
              exact hdisj' (hp_as b h) (List.mem_cons_self b bs')
            rw [hfind b, if_neg h1, if_neg h2, if_pos hxb, hn₀, hprev]
            rfl
    · -- head
      rw [remove_node_head]
      rcases hpx : n.prev with _ | pk
      · have hasnil : as = [] := by
          have := hprev.symm.trans hpx
          rw [lastOr_none] at this
          exact List.getLast?_eq_none_iff.mp this
        subst hasnil
        rw [hnext, headOr_none]
        rfl
      · cases as with
        | nil =>
          rw [hprev] at hpx
          cases hpx
        | cons a as' =>
          have : c.head = some a := by
            rw [lw.head_eq]
            rfl
          simp [this]
    · -- tail
      rw [remove_node_tail]
      rcases hnx : n.next with _ | nk
      · have hbsnil : bs = [] := by
          have := hnext.symm.trans hnx
          cases bs with
          | nil => rfl
          | cons b bs' => cases this
        subst hbsnil
        rw [hprev, lastOr_none]
        simp
      · cases bs with
        | nil =>
          rw [hnext] at hnx
          cases hnx
        | cons b bs' =>
          have h0 : c.tail = (b :: bs').getLast? := by
            rw [lw.tail_eq, getLast?_append_cons, List.getLast?_cons_cons]
          show c.tail = (as ++ b :: bs').getLast?
          rw [h0, getLast?_append_cons]
    · -- permutation with the map keys
      have hkeys' : keys (SieveCache.remove_node { c with map := mremove c.map k } n).map
          = keys (mremove c.map k) := by
        rw [remove_node_map]
        rcases n.prev with _ | pk <;> rcases n.next with _ | nk <;>
          simp [keys_mset_next, keys_mset_prev]
      rw [hkeys', hremkeys]
      have p1 : List.Perm (k :: (keys m₁ ++ keys m₂)) (keys c.map) := by
        rw [hkeysm]
        exact List.perm_middle.symm
      have p3 : List.Perm (as ++ k :: bs) (k :: (as ++ bs)) := List.perm_middle
      exact ((p1.trans lw.perm).trans p3).cons_inv
  · rw [hfind k]
    simp
  · intro k' hk'
    simp only [valAt, visAt]
    rw [hfind k']
    by_cases h2 : n.prev = some k'
    · rw [if_neg hk', if_pos h2]
      cases mfind c.map k' <;> simp
    · by_cases h3 : n.next = some k'
      · rw [if_neg hk', if_neg h2, if_pos h3]
        cases mfind c.map k' <;> simp
      · rw [if_neg hk', if_neg h2, if_neg h3]
        exact ⟨rfl, rfl⟩

/-! ## The eviction loop -/

theorem mfind_mset_vis (m : List (Node K V)) (q : K) (b : Bool) (k' : K) :
    mfind (mset m q (fun nn => { nn with visited := b })) k' =
      if k' = q then (mfind m q).map (fun nn => { nn with visited := b })
      else mfind m k' :=
  mfind_mset m q (fun nn => { nn with visited := b }) (fun _ => rfl) k'

theorem findCongr {p q : K → Bool} {l : List K} (h : ∀ a ∈ l, p a = q a) :
    l.find? p = l.find? q := by
  induction l with
  | nil => rfl
  | cons a l ih =>
    by_cases ha : p a = true
    · rw [List.find?_cons_of_pos l ha, List.find?_cons_of_pos l
        (((h a (by simp)).symm.trans ha))]
    · rw [List.find?_cons_of_neg l ha, List.find?_cons_of_neg l
        (fun hq => ha (((h a (by simp)).trans hq))),
        ih (fun a ha => h a (by simp [ha]))]

/-- The two break tests of the source loop amount to the victim test. -/
theorem evictLoop_step (ec : Option (K → V → Bool)) (tl : Option K)
    (m : List (Node K V)) (k : K) (r : Nat) (n : Node K V)
    (hn : mfind m k = some n) :
    evictLoop ec tl m (some k) (r + 1) =
      if isVictim ec n = true then .exited m (some k)
      else evictLoop ec tl (mset m k (fun nn => { nn with visited := false }))
        (if n.prev.isSome then n.prev else tl) r := by
  rw [evictLoop, hn]
  rcases ec with _ | p
  · cases hv : n.visited <;> simp [isVictim, evApply, hv]
  · cases hv : n.visited
    · cases hp : p n.key n.value <;> simp [isVictim, evApply, hv, hp]
    · simp [isVictim, evApply, hv]

/-- The scan examines at most as many entries as its budget, which `evict`
sets to `len`. -/
theorem evictLoopSteps_le (ec : Option (K → V → Bool)) (tl : Option K)
    (m : List (Node K V)) (node : Option K) (r : Nat) :
    evictLoopSteps ec tl m node r ≤ r := by
  induction r generalizing m node with
  | zero => cases node <;> simp [evictLoopSteps]
  | succ r ih =>
    cases node with
    | none => simp [evictLoopSteps]
    | some k =>
      rw [evictLoopSteps]
      split
      · omega
      · rename_i n _
        split
        · omega
        · split
          · omega
          · have := ih (mset m k (fun nn => { nn with visited := false }))
              (if n.prev.isSome then n.prev else tl)
            omega

/-- All entries of `l` are present with a cleared visited bit. -/
def clearedOn (m' : List (Node K V)) (l : List K) : Prop :=
  ∀ a ∈ l, ∃ n, mfind m' a = some n ∧ n.visited = false

/-- Entries outside `l` are untouched. -/
def unchangedOff (m m' : List (Node K V)) (l : List K) : Prop :=
  ∀ a, a ∉ l → mfind m' a = mfind m a

theorem evictLoop_up (ec : Option (K → V → Bool)) (tl : Option K) :
    ∀ (up bs : List K) (m : List (Node K V)) (r : Nat),
      up ≠ [] →
      DSeg m none (up.reverse ++ bs) none →
      (up.reverse ++ bs).Nodup →
      tl = (up.reverse ++ bs).getLast? →
      (∀ kv, firstVictim ec m (up.take r) = some kv →
        ∃ m', evictLoop ec tl m (headOr up none) r = .exited m' (some kv) ∧
          ShapeEq m m' ∧ mfind m' kv = mfind m kv) ∧
      (firstVictim ec m (up.take r) = none → r ≤ up.length →
        ∃ m', evictLoop ec tl m (headOr up none) r = .failed m' ∧
          ShapeEq m m' ∧ clearedOn m' (up.take r) ∧
          unchangedOff m m' (up.take r)) ∧
      (firstVictim ec m (up.take r) = none → up.length < r →
        ∃ m', evictLoop ec tl m (headOr up none) r =
            evictLoop ec tl m' tl (r - up.length) ∧
          ShapeEq m m' ∧ clearedOn m' up ∧ unchangedOff m m' up) := by
  intro up
  induction up with
  | nil =>
    intro bs m r h
    exact absurd rfl h
  | cons k up' ih =>
    intro bs m r _ hseg hnd htl
    have hsplit : (k :: up').reverse ++ bs = up'.reverse ++ k :: bs := by
      rw [List.reverse_cons, List.append_assoc]
      rfl
    have hkmem : k ∈ (k :: up').reverse ++ bs := by simp
    obtain ⟨n, hn⟩ := dseg_find hseg hkmem
    have hprevn : n.prev = up'.head? := by
      have h0 := dseg_at hseg hsplit hn
      rw [h0.1, lastOr_none]
      simp
    have hknotup : k ∉ up' := by
      have h1 : ((k :: up').reverse).Nodup := hnd.of_append_left
      rw [List.nodup_reverse] at h1
      exact (List.nodup_cons.mp h1).1
    cases r with
    | zero =>
      refine ⟨?_, ?_, ?_⟩
      · intro kv hkv
        simp [firstVictim] at hkv
      · intro _ _
        refine ⟨m, rfl, shapeEq_refl m, ?_, ?_⟩
        · intro a ha
          simp at ha
        · intro a _
          rfl
      · intro _ h
        omega
    | succ r' =>
      have hstep := evictLoop_step ec tl m k r' n hn
      by_cases hv : isVictim ec n = true
      · -- the cursor entry itself is the victim
        have hvk : victimAt ec m k = true := by
          simp [victimAt, hn, hv]
        have hfvk : firstVictim ec m ((k :: up').take (r' + 1)) = some k := by
          rw [List.take_succ_cons, firstVictim, List.find?_cons_of_pos _ hvk]
        refine ⟨?_, ?_, ?_⟩
        · intro kv hkv
          rw [hfvk] at hkv
          injection hkv with hkv
          subst hkv
          refine ⟨m, ?_, shapeEq_refl m, rfl⟩
          simp only [headOr]
          rw [hstep, if_pos hv]
        · intro hnone
          rw [hfvk] at hnone
          cases hnone
        · intro hnone
          rw [hfvk] at hnone
          cases hnone
      · -- the cursor entry is not a victim: its bit is cleared and the scan advances
        have hvf : isVictim ec n = false := by
          revert hv
          cases isVictim ec n <;> simp
        have hvk : victimAt ec m k = false := by
          simp [victimAt, hn, hvf]
        have hshape1 : ShapeEq m (mset m k (fun nn => { nn with visited := false })) :=
          shapeEq_mset_vis m k false
        have hstep' : evictLoop ec tl m (some k) (r' + 1) =
            evictLoop ec tl (mset m k (fun nn => { nn with visited := false }))
              (if n.prev.isSome then n.prev else tl) r' := by
          rw [hstep, if_neg hv]
        have hm1k : mfind (mset m k (fun nn => { nn with visited := false })) k =
            some { n with visited := false } := by
          rw [mfind_mset_vis, if_pos rfl, hn]
          rfl
        have hunch : ∀ a, a ≠ k →
            mfind (mset m k (fun nn => { nn with visited := false })) a = mfind m a := by
          intro a ha
          rw [mfind_mset_vis, if_neg ha]
        have hfv_shift : firstVictim ec m ((k :: up').take (r' + 1)) =
            firstVictim ec m (up'.take r') := by
          rw [List.take_succ_cons, firstVictim, firstVictim,
            List.find?_cons_of_neg _ (by simp [hvk])]
        have hfv_m1 : firstVictim ec m (up'.take r') =
            firstVictim ec (mset m k (fun nn => { nn with visited := false }))
              (up'.take r') := by
          refine findCongr ?_
          intro a ha
          have hak : a ≠ k := fun he => hknotup (he ▸ List.mem_of_mem_take ha)
          simp [victimAt, hunch a hak]
        cases up' with
        | nil =>
          have hnext_tl : (if n.prev.isSome then n.prev else tl) = tl := by
            rw [hprevn]
            rfl
          obtain ⟨t, htsome⟩ : ∃ t, tl = some t := by
            rw [htl]
            have hne : (k :: ([] : List K)).reverse ++ bs ≠ [] := by simp
            exact Option.isSome_iff_exists.mp (List.getLast?_isSome.mpr hne)
          refine ⟨?_, ?_, ?_⟩
          · intro kv hkv
            rw [hfv_shift] at hkv
            simp [firstVictim] at hkv
          · intro _ hr
            have hr0 : r' = 0 := by
              simp at hr
              omega
            subst hr0
            refine ⟨mset m k (fun nn => { nn with visited := false }), ?_,
              hshape1, ?_, ?_⟩
            · simp only [headOr]
              rw [hstep', hnext_tl, htsome]
              rfl
            · intro a ha
              simp at ha
              subst ha
              exact ⟨{ n with visited := false }, hm1k, rfl⟩
            · intro a ha
              simp at ha
              exact hunch a ha
          · intro _ hr
            refine ⟨mset m k (fun nn => { nn with visited := false }), ?_,
              hshape1, ?_, ?_⟩
            · simp only [headOr]
              rw [hstep', hnext_tl]
              rfl
            · intro a ha
              simp at ha
              subst ha
              exact ⟨{ n with visited := false }, hm1k, rfl⟩
            · intro a ha
              simp at ha
              exact hunch a ha
        | cons u us =>
          have hnext_u : (if n.prev.isSome then n.prev else tl) = some u := by
            rw [hprevn]
            rfl
          have hseg1 : DSeg (mset m k (fun nn => { nn with visited := false })) none
              ((u :: us).reverse ++ k :: bs) none := by
            rw [← hsplit]
            exact dseg_shapeEq hshape1 hseg
          have hnd1 : ((u :: us).reverse ++ k :: bs).Nodup := hsplit ▸ hnd
          have htl1 : tl = ((u :: us).reverse ++ k :: bs).getLast? := by
            rw [htl, hsplit]
          have IH := ih (k :: bs) (mset m k (fun nn => { nn with visited := false }))
            r' (by simp) hseg1 hnd1 htl1
          refine ⟨?_, ?_, ?_⟩
          · intro kv hkv
            rw [hfv_shift] at hkv
            have hkv1 := hfv_m1 ▸ hkv
            have hkvmem : kv ∈ (u :: us).take r' := List.mem_of_find?_eq_some hkv1
            have hkvne : kv ≠ k := fun he =>
              hknotup (he ▸ List.mem_of_mem_take hkvmem)
            obtain ⟨m', hloop, hsh, hfind'⟩ := IH.1 kv hkv1
            refine ⟨m', ?_, shapeEq_trans hshape1 hsh, ?_⟩
            · simp only [headOr]
              rw [hstep', hnext_u]
              simp only [headOr] at hloop
              exact hloop
            · rw [hfind', hunch kv hkvne]
          · intro hnone hr
            rw [hfv_shift] at hnone
            have hnone1 := hfv_m1 ▸ hnone
            have hr1 : r' ≤ (u :: us).length := by
              simp only [List.length_cons] at hr ⊢
              omega
            obtain ⟨m', hloop, hsh, hclr, hunc⟩ := IH.2.1 hnone1 hr1
            refine ⟨m', ?_, shapeEq_trans hshape1 hsh, ?_, ?_⟩
            · simp only [headOr]
              rw [hstep', hnext_u]
              simp only [headOr] at hloop
              exact hloop
            · rw [List.take_succ_cons]
              intro a ha
              rcases List.mem_cons.mp ha with rfl | ha'
              · have heq : mfind m' a =
                    mfind (mset m a (fun nn => { nn with visited := false })) a :=
                  hunc a (fun hmem => hknotup (List.mem_of_mem_take hmem))
                exact ⟨{ n with visited := false }, by rw [heq, hm1k], rfl⟩
              · exact hclr a ha'
            · rw [List.take_succ_cons]
              intro a ha
              have h1 : a ≠ k := fun he => ha (he ▸ List.mem_cons_self a _)
              have h2 : a ∉ (u :: us).take r' := fun hmem =>
                ha (List.mem_cons_of_mem _ hmem)
              rw [hunc a h2, hunch a h1]
          · intro hnone hr
            rw [hfv_shift] at hnone
            have hnone1 := hfv_m1 ▸ hnone
            have hr1 : (u :: us).length < r' := by
              simp only [List.length_cons] at hr ⊢
              omega
            obtain ⟨m', hloop, hsh, hclr, hunc⟩ := IH.2.2 hnone1 hr1
            refine ⟨m', ?_, shapeEq_trans hshape1 hsh, ?_, ?_⟩
            · simp only [headOr]
              rw [hstep', hnext_u]
              simp only [headOr] at hloop
              rw [hloop]
              have harith : r' - (u :: us).length =
                  r' + 1 - (k :: u :: us).length := by
                simp only [List.length_cons]
                omega
              rw [harith]
            · intro a ha
              rcases List.mem_cons.mp ha with rfl | ha'
              · have heq : mfind m' a =
                    mfind (mset m a (fun nn => { nn with visited := false })) a :=
                  hunc a hknotup
                exact ⟨{ n with visited := false }, by rw [heq, hm1k], rfl⟩
              · exact hclr a ha'
            · intro a ha
              have h1 : a ≠ k := fun he => ha (he ▸ List.mem_cons_self a _)
              have h2 : a ∉ u :: us := fun hmem => ha (List.mem_cons_of_mem _ hmem)
              rw [hunc a h2, hunch a h1]

/-! ## Scan order -/

theorem upTo_split {as bs : List K} {h : K} (hnotin : h ∉ as) :
    upTo (as ++ h :: bs) h = as ++ [h] := by
  induction as with
  | nil => simp [upTo]
  | cons a as ih =>
    have ha : ¬ a = h := fun he => hnotin (by simp [he])
    rw [List.cons_append, upTo, if_neg ha,
      ih (fun hm => hnotin (List.mem_cons_of_mem a hm)), List.cons_append]

theorem afterKey_split {as bs : List K} {h : K} (hnotin : h ∉ as) :
    afterKey (as ++ h :: bs) h = bs := by
  induction as with
  | nil => simp [afterKey]
  | cons a as ih =>
    have ha : ¬ a = h := fun he => hnotin (by simp [he])
    rw [List.cons_append, afterKey, if_neg ha,
      ih (fun hm => hnotin (List.mem_cons_of_mem a hm))]

theorem scanOrder_some {ks as bs : List K} {h : K} (hks : ks = as ++ h :: bs)
    (hnotin : h ∉ as) :
    scanOrder ks (some h) = (h :: as.reverse) ++ bs.reverse := by
  subst hks
  rw [scanOrder, upTo_split hnotin, afterKey_split hnotin]
  simp

theorem scanOrder_none (ks : List K) : scanOrder ks (none : Option K) = ks.reverse :=
  rfl

theorem evictLoop_main (ec : Option (K → V → Bool)) (tl : Option K)
    (m : List (Node K V)) {ks as bs : List K} {h : K}
    (hks : ks = as ++ h :: bs) (hnd : ks.Nodup)
    (hseg : DSeg m none ks none) (htl : tl = ks.getLast?) :
    (∀ kv, firstVictim ec m ((h :: as.reverse) ++ bs.reverse) = some kv →
      ∃ m', evictLoop ec tl m (some h) ks.length = .exited m' (some kv) ∧
        ShapeEq m m' ∧ mfind m' kv = mfind m kv) ∧
    (firstVictim ec m ((h :: as.reverse) ++ bs.reverse) = none →
      ∃ m', evictLoop ec tl m (some h) ks.length = .failed m' ∧
        ShapeEq m m' ∧ clearedOn m' ks) := by
  subst hks
  obtain ⟨ndas, ndhbs, hdisj⟩ := List.nodup_append.mp hnd
  have hhbs : h ∉ bs := (List.nodup_cons.mp ndhbs).1
  have hhas : h ∉ as := fun hm => hdisj hm (List.mem_cons_self h bs)
  have hdisj' : as.Disjoint bs := by
    intro a ha hb
    exact hdisj ha (List.mem_cons_of_mem h hb)
  have hup1rev : (h :: as.reverse).reverse ++ bs = as ++ h :: bs := by simp
  have hseg1 : DSeg m none ((h :: as.reverse).reverse ++ bs) none := by
    rw [hup1rev]
    exact hseg
  have hnd1 : ((h :: as.reverse).reverse ++ bs).Nodup := by
    rw [hup1rev]
    exact hnd
  have htl1 : tl = ((h :: as.reverse).reverse ++ bs).getLast? := by
    rw [hup1rev]
    exact htl
  have HP1 := evictLoop_up ec tl (h :: as.reverse) bs m ((as ++ h :: bs).length)
    (by simp) hseg1 hnd1 htl1
  have htake1 : (h :: as.reverse).take ((as ++ h :: bs).length) = h :: as.reverse := by
    apply List.take_of_length_le
    simp only [List.length_cons, List.length_append, List.length_reverse]
    omega
  have hmem2gen : ∀ a, a ∈ bs.reverse → a ∉ (h :: as.reverse) := by
    intro a ha hmem
    rw [List.mem_reverse] at ha
    rcases List.mem_cons.mp hmem with rfl | hmem'
    · exact hhbs ha
    · exact hdisj' (List.mem_reverse.mp hmem') ha
  constructor
  · intro kv hkv
    rw [firstVictim, List.find?_append] at hkv
    rcases hfv1 : (h :: as.reverse).find? (victimAt ec m) with _ | kv1
    · -- no victim before the wrap, victim found after wrapping to the tail
      rw [hfv1, Option.none_or] at hkv
      cases bs with
      | nil => simp at hkv
      | cons b bs₂ =>
        obtain ⟨m₁, hloop1, hsh1, hclr1, hunc1⟩ := HP1.2.2
          (by rw [firstVictim, htake1]; exact hfv1)
          (by simp only [List.length_cons, List.length_append, List.length_reverse]; omega)
        have hloop1' : evictLoop ec tl m (some h) ((as ++ h :: b :: bs₂).length) =
            evictLoop ec tl m₁ tl
              ((as ++ h :: b :: bs₂).length - (h :: as.reverse).length) := hloop1
        have hbudget : (as ++ h :: b :: bs₂).length - (h :: as.reverse).length =
            (b :: bs₂).length := by
          simp
          omega
        have hrevrev : ((as ++ h :: b :: bs₂).reverse).reverse ++ ([] : List K) =
            as ++ h :: b :: bs₂ := by simp
        have hseg2 : DSeg m₁ none (((as ++ h :: b :: bs₂).reverse).reverse ++ []) none := by
          rw [hrevrev]
          exact dseg_shapeEq hsh1 hseg
        have hnd2 : (((as ++ h :: b :: bs₂).reverse).reverse ++ ([] : List K)).Nodup := by
          rw [hrevrev]
          exact hnd
        have htl2 : tl = (((as ++ h :: b :: bs₂).reverse).reverse ++ ([] : List K)).getLast? := by
          rw [hrevrev]
          exact htl
        have HP2 := evictLoop_up ec tl ((as ++ h :: b :: bs₂).reverse) [] m₁
          ((b :: bs₂).length) (by simp) hseg2 hnd2 htl2
        have htlhead : tl = headOr ((as ++ h :: b :: bs₂).reverse) none := by
          rw [headOr_none, List.head?_reverse]
          exact htl
        have htake2 : ((as ++ h :: b :: bs₂).reverse).take ((b :: bs₂).length) =
            (b :: bs₂).reverse := by
          have hrw : (as ++ h :: b :: bs₂).reverse =
              (b :: bs₂).reverse ++ (h :: as.reverse) := by simp
          rw [hrw]
          exact List.take_left' (by simp)
        have hfv2 : firstVictim ec m₁ ((b :: bs₂).reverse) = some kv := by
          rw [firstVictim, ← hkv]
          apply findCongr
          intro a ha
          simp [victimAt, hunc1 a (hmem2gen a ha)]
        obtain ⟨m₂, hloop2, hsh2, hfk2⟩ := HP2.1 kv
          (by rw [firstVictim, htake2]; exact hfv2)
        have hloop2' : evictLoop ec tl m₁ tl ((b :: bs₂).length) =
            .exited m₂ (some kv) := by
          nth_rewrite 2 [htlhead]
          exact hloop2
        refine ⟨m₂, ?_, shapeEq_trans hsh1 hsh2, ?_⟩
        · rw [hloop1', hbudget, hloop2']
        · rw [hfk2]
          exact hunc1 kv (hmem2gen kv (List.mem_of_find?_eq_some hkv))
    · -- victim found before the wrap
      rw [hfv1, Option.or_some] at hkv
      injection hkv with hkv
      subst hkv
      obtain ⟨m', hloop, hsh, hfk⟩ := HP1.1 kv1
        (by rw [firstVictim, htake1]; exact hfv1)
      have hloop' : evictLoop ec tl m (some h) ((as ++ h :: bs).length) =
          .exited m' (some kv1) := hloop
      exact ⟨m', hloop', hsh, hfk⟩
  · intro hnone
    rw [firstVictim, List.find?_append] at hnone
    have hfv1 : (h :: as.reverse).find? (victimAt ec m) = none := by
      rcases hx : (h :: as.reverse).find? (victimAt ec m) with _ | kv1
      · rfl
      · rw [hx, Option.or_some] at hnone
        cases hnone
    rw [hfv1, Option.none_or] at hnone
    cases bs with
    | nil =>
      obtain ⟨m', hloop, hsh, hclr, _⟩ := HP1.2.1
        (by rw [firstVictim, htake1]; exact hfv1) (by simp)
      have hloop' : evictLoop ec tl m (some h) ((as ++ h :: ([] : List K)).length) =
          .failed m' := hloop
      refine ⟨m', hloop', hsh, ?_⟩
      intro a ha
      rw [htake1] at hclr
      apply hclr
      rcases List.mem_append.mp ha with h1 | h1
      · exact List.mem_cons_of_mem h (List.mem_reverse.mpr h1)
      · rcases List.mem_cons.mp h1 with rfl | h2
        · exact List.mem_cons_self a _
        · cases h2
    | cons b bs₂ =>
      obtain ⟨m₁, hloop1, hsh1, hclr1, hunc1⟩ := HP1.2.2
        (by rw [firstVictim, htake1]; exact hfv1)
        (by simp only [List.length_cons, List.length_append, List.length_reverse]; omega)
      have hloop1' : evictLoop ec tl m (some h) ((as ++ h :: b :: bs₂).length) =
          evictLoop ec tl m₁ tl
            ((as ++ h :: b :: bs₂).length - (h :: as.reverse).length) := hloop1
      have hbudget : (as ++ h :: b :: bs₂).length - (h :: as.reverse).length =
          (b :: bs₂).length := by
        simp
        omega
      have hrevrev : ((as ++ h :: b :: bs₂).reverse).reverse ++ ([] : List K) =
          as ++ h :: b :: bs₂ := by simp
      have hseg2 : DSeg m₁ none (((as ++ h :: b :: bs₂).reverse).reverse ++ []) none := by
        rw [hrevrev]
        exact dseg_shapeEq hsh1 hseg
      have hnd2 : (((as ++ h :: b :: bs₂).reverse).reverse ++ ([] : List K)).Nodup := by
        rw [hrevrev]
        exact hnd
      have htl2 : tl = (((as ++ h :: b :: bs₂).reverse).reverse ++ ([] : List K)).getLast? := by
        rw [hrevrev]
        exact htl
      have HP2 := evictLoop_up ec tl ((as ++ h :: b :: bs₂).reverse) [] m₁
        ((b :: bs₂).length) (by simp) hseg2 hnd2 htl2
      have htlhead : tl = headOr ((as ++ h :: b :: bs₂).reverse) none := by
        rw [headOr_none, List.head?_reverse]
        exact htl
      have htake2 : ((as ++ h :: b :: bs₂).reverse).take ((b :: bs₂).length) =
          (b :: bs₂).reverse := by
        have hrw : (as ++ h :: b :: bs₂).reverse =
            (b :: bs₂).reverse ++ (h :: as.reverse) := by simp
        rw [hrw]
        exact List.take_left' (by simp)
      have hfv2 : firstVictim ec m₁ ((b :: bs₂).reverse) = none := by
        rw [firstVictim, ← hnone]
        apply findCongr
        intro a ha
        simp [victimAt, hunc1 a (hmem2gen a ha)]
      obtain ⟨m₂, hloop2, hsh2, hclr2, hunc2⟩ := HP2.2.1
        (by rw [firstVictim, htake2]; exact hfv2) (by simp)
      have hloop2' : evictLoop ec tl m₁ tl ((b :: bs₂).length) = .failed m₂ := by
        nth_rewrite 2 [htlhead]
        exact hloop2
      rw [htake2] at hclr2 hunc2
      refine ⟨m₂, ?_, shapeEq_trans hsh1 hsh2, ?_⟩
      · rw [hloop1', hbudget, hloop2']
      · intro a ha
        by_cases ham : a ∈ (b :: bs₂).reverse
        · exact hclr2 a ham
        · have hup : a ∈ h :: as.reverse := by
            rcases List.mem_append.mp ha with h1 | h1
            · exact List.mem_cons_of_mem h (List.mem_reverse.mpr h1)
            · rcases List.mem_cons.mp h1 with rfl | h2
              · exact List.mem_cons_self a _
              · exact absurd (List.mem_reverse.mpr h2) ham
          obtain ⟨nn, hnn, hv⟩ := hclr1 a hup
          exact ⟨nn, by rw [hunc2 a ham, hnn], hv⟩

/-! ## Specification of `evict` -/

theorem evict_core {c : SieveCache K V} {ks as0 bs0 : List K} {h : K}
    (hwf : WF c ks) (hks : ks = as0 ++ h :: bs0)
    (hstart : c.hand.or c.tail = some h) :
    (∀ kv, firstVictim c.evict_condition c.map
        ((h :: as0.reverse) ++ bs0.reverse) = some kv →
      ∃ n as bs,
        mfind c.map kv = some n ∧ ks = as ++ kv :: bs ∧
        (c.evict).2 = true ∧
        (c.evict).1.hand = n.prev ∧ n.prev = lastOr as none ∧
        (c.evict).1.len = c.len - 1 ∧
        (c.evict).1.capacity = c.capacity ∧
        (c.evict).1.evict_condition = c.evict_condition ∧
        mfind (c.evict).1.map kv = none ∧
        (∀ k', k' ≠ kv → valAt (c.evict).1.map k' = valAt c.map k') ∧
        ListWF (c.evict).1.map (c.evict).1.head (c.evict).1.tail (as ++ bs)) ∧
    (firstVictim c.evict_condition c.map
        ((h :: as0.reverse) ++ bs0.reverse) = none →
      (c.evict).2 = false ∧
      (c.evict).1.head = c.head ∧ (c.evict).1.tail = c.tail ∧
      (c.evict).1.hand = c.hand ∧ (c.evict).1.len = c.len ∧
      (c.evict).1.capacity = c.capacity ∧
      (c.evict).1.evict_condition = c.evict_condition ∧
      ShapeEq c.map (c.evict).1.map ∧ clearedOn (c.evict).1.map ks) := by
  have lw := hwf.lw
  have HM := evictLoop_main c.evict_condition c.tail c.map hks lw.nodup lw.seg
    lw.tail_eq
  constructor
  · intro kv hfv
    obtain ⟨m', hloop, hsh, hfk⟩ := HM.1 kv hfv
    have hkvmem : kv ∈ ks := by
      rw [hks]
      rcases List.mem_append.mp (List.mem_of_find?_eq_some hfv) with h1 | h1
      · rcases List.mem_cons.mp h1 with rfl | h2
        · simp
        · rw [List.mem_reverse] at h2
          simp [h2]
      · rw [List.mem_reverse] at h1
        simp [h1]
    obtain ⟨n, hn⟩ := dseg_find lw.seg hkvmem
    obtain ⟨as, bs, hsplit⟩ := List.append_of_mem hkvmem
    have hfk' : mfind m' kv = some n := by
      rw [hfk, hn]
    have hloop' : evictLoop c.evict_condition c.tail c.map (c.hand.or c.tail)
        c.len = .exited m' (some kv) := by
      rw [hstart, hwf.len_eq]
      exact hloop
    have heq : c.evict =
        ({ (SieveCache.remove_node
              { c with map := mremove m' kv, hand := n.prev } n) with
            len := (SieveCache.remove_node
              { c with map := mremove m' kv, hand := n.prev } n).len - 1 },
          true) := by
      simp only [SieveCache.evict, hloop', hfk']
    have lwX : ListWF m' c.head c.tail ks := listWF_shapeEq hsh lw
    have HD := detach_spec { c with map := m', hand := n.prev }
      lwX hsplit hfk'
      (rfl : SieveCache.remove_node
          { c with map := mremove m' kv, hand := n.prev } n =
        SieveCache.remove_node
          { { c with map := m', hand := n.prev } with
              map := mremove ({ c with map := m', hand := n.prev }).map kv } n)
    obtain ⟨hlw', hnone', hvals', hprev', hnext'⟩ := HD
    refine ⟨n, as, bs, hn, hsplit, ?_, ?_, ?_, ?_, ?_, ?_, ?_, ?_, ?_⟩
    · rw [heq]
    · rw [heq]
      show (SieveCache.remove_node
        { c with map := mremove m' kv, hand := n.prev } n).hand = n.prev
      rw [remove_node_hand]
    · exact hprev'
    · rw [heq]
      show (SieveCache.remove_node
        { c with map := mremove m' kv, hand := n.prev } n).len - 1 = c.len - 1
      rw [remove_node_len]
    · rw [heq]
      show (SieveCache.remove_node
        { c with map := mremove m' kv, hand := n.prev } n).capacity = c.capacity
      rw [remove_node_capacity]
    · rw [heq]
      show (SieveCache.remove_node
        { c with map := mremove m' kv, hand := n.prev } n).evict_condition =
        c.evict_condition
      rw [remove_node_evict_condition]
    · rw [heq]
      exact hnone'
    · intro k' hk'
      rw [heq]
      exact ((hvals' k' hk').1).trans (shapeEq_valAt hsh k')
    · rw [heq]
      exact hlw'
  · intro hnone
    obtain ⟨m', hloop, hsh, hclr⟩ := HM.2 hnone
    have hloop' : evictLoop c.evict_condition c.tail c.map (c.hand.or c.tail)
        c.len = .failed m' := by
      rw [hstart, hwf.len_eq]
      exact hloop
    have heq : c.evict = ({ c with map := m' }, false) := by
      simp only [SieveCache.evict, hloop']
    refine ⟨by rw [heq], by rw [heq], by rw [heq], by rw [heq], by rw [heq],
      by rw [heq], by rw [heq], by rw [heq]; exact hsh, by rw [heq]; exact hclr⟩

theorem start_split {c : SieveCache K V} {ks : List K} (hwf : WF c ks)
    (hne : ks ≠ []) :
    ∃ as0 h bs0, ks = as0 ++ h :: bs0 ∧ c.hand.or c.tail = some h ∧
      scanOrder ks (c.hand.or c.tail) = (h :: as0.reverse) ++ bs0.reverse := by
  rcases hh : c.hand with _ | h
  · obtain ⟨t, ht⟩ := Option.isSome_iff_exists.mp (List.getLast?_isSome.mpr hne)
    obtain ⟨ys, hys⟩ := List.getLast?_eq_some_iff.mp ht
    have hnotin : t ∉ ys := by
      have hnd := hwf.lw.nodup
      rw [hys] at hnd
      obtain ⟨_, _, hdisj⟩ := List.nodup_append.mp hnd
      exact fun hm => hdisj hm (List.mem_cons_self t [])
    have hstart : (none : Option K).or c.tail = some t := by
      rw [Option.none_or, hwf.lw.tail_eq, ht]
    refine ⟨ys, t, [], hys, hstart, ?_⟩
    rw [hstart]
    exact scanOrder_some hys hnotin
  · have hmem := hwf.hand_mem h hh
    obtain ⟨as0, bs0, hks⟩ := List.append_of_mem hmem
    have hnotin : h ∉ as0 := by
      have hnd := hwf.lw.nodup
      rw [hks] at hnd
      obtain ⟨_, _, hdisj⟩ := List.nodup_append.mp hnd
      exact fun hm => hdisj hm (List.mem_cons_self h bs0)
    have hstart : (some h).or c.tail = some h := rfl
    refine ⟨as0, h, bs0, hks, hstart, ?_⟩
    rw [hstart]
    exact scanOrder_some hks hnotin

theorem evict_found {c : SieveCache K V} {ks : List K} {kv : K} (hwf : WF c ks)
    (hfv : firstVictim c.evict_condition c.map
      (scanOrder ks (c.hand.or c.tail)) = some kv) :
    ∃ n as bs,
      mfind c.map kv = some n ∧ ks = as ++ kv :: bs ∧
      (c.evict).2 = true ∧
      (c.evict).1.hand = n.prev ∧ n.prev = lastOr as none ∧
      (c.evict).1.len = c.len - 1 ∧
      (c.evict).1.capacity = c.capacity ∧
      (c.evict).1.evict_condition = c.evict_condition ∧
      mfind (c.evict).1.map kv = none ∧
      (∀ k', k' ≠ kv → valAt (c.evict).1.map k' = valAt c.map k') ∧
      ListWF (c.evict).1.map (c.evict).1.head (c.evict).1.tail (as ++ bs) := by
  have hne : ks ≠ [] := by
    intro h0
    subst h0
    rcases hh : c.hand with _ | h
    · have htail : c.tail = none := by
        rw [hwf.lw.tail_eq]
        rfl
      rw [hh, htail] at hfv
      simp [scanOrder, firstVictim] at hfv
    · exact absurd (hwf.hand_mem h hh) (List.not_mem_nil h)
  obtain ⟨as0, h, bs0, hks, hstart, horder⟩ := start_split hwf hne
  rw [horder] at hfv
  exact (evict_core hwf hks hstart).1 kv hfv

theorem evict_failed {c : SieveCache K V} {ks : List K} (hwf : WF c ks)
    (hne : ks ≠ [])
    (hnone : firstVictim c.evict_condition c.map
      (scanOrder ks (c.hand.or c.tail)) = none) :
    (c.evict).2 = false ∧
    (c.evict).1.head = c.head ∧ (c.evict).1.tail = c.tail ∧
    (c.evict).1.hand = c.hand ∧ (c.evict).1.len = c.len ∧
    (c.evict).1.capacity = c.capacity ∧
    (c.evict).1.evict_condition = c.evict_condition ∧
    ShapeEq c.map (c.evict).1.map ∧ clearedOn (c.evict).1.map ks := by
  obtain ⟨as0, h, bs0, hks, hstart, horder⟩ := start_split hwf hne
  rw [horder] at hnone
  exact (evict_core hwf hks hstart).2 hnone

/-! ## Specification of the mutating operations -/

theorem dseg_mset_kpn {m : List (Node K V)} {k : K} {f : Node K V → Node K V}
    (hf : ∀ x, (f x).key = x.key ∧ (f x).prev = x.prev ∧ (f x).next = x.next)
    {p nx : Option K} {ks : List K} :
    DSeg m p ks nx → DSeg (mset m k f) p ks nx := by
  induction ks generalizing p with
  | nil => intro _; exact dseg_nil
  | cons a l ih =>
    intro hd
    obtain ⟨n, hn, hp, hx, hs⟩ := dseg_cons.mp hd
    rw [dseg_cons]
    by_cases ha : a = k
    · subst ha
      refine ⟨f n, ?_, (hf n).2.1.trans hp, (hf n).2.2.trans hx, ih hs⟩
      rw [mfind_mset m a f (fun x => (hf x).1), if_pos rfl, hn]
      rfl
    · refine ⟨n, ?_, hp, hx, ih hs⟩
      rw [mfind_mset m k f (fun x => (hf x).1), if_neg ha]
      exact hn

theorem listWF_mset_kpn {m : List (Node K V)} {hd tl : Option K} {ks : List K}
    {k : K} {f : Node K V → Node K V}
    (hf : ∀ x, (f x).key = x.key ∧ (f x).prev = x.prev ∧ (f x).next = x.next)
    (lw : ListWF m hd tl ks) : ListWF (mset m k f) hd tl ks :=
  ⟨lw.nodup, dseg_mset_kpn hf lw.seg, lw.head_eq, lw.tail_eq,
    (keys_mset m k f (fun x => (hf x).1)) ▸ lw.perm⟩

theorem add_node_eval (c : SieveCache K V) (k : K) (v : V) :
    c.add_node (Node.new k v) =
      ({ c with
          map := (match c.head with
            | some hk => mset c.map hk (fun x => { x with prev := some k })
            | none => c.map),
          head := some k,
          tail := if c.tail.isNone then some k else c.tail },
        { key := k, value := v, prev := none, next := c.head, visited := false }) := by
  rw [SieveCache.add_node]
  rfl

/-- The continuation of `insert` after room has been made: link the fresh node
at the head, store it in the map and bump `len`. -/
def addOut (c1 : SieveCache K V) (k : K) (v : V) : SieveCache K V :=
  { (c1.add_node (Node.new k v)).1 with
      map := (c1.add_node (Node.new k v)).2 :: (c1.add_node (Node.new k v)).1.map,
      len := (c1.add_node (Node.new k v)).1.len + 1 }

theorem insert_existing_eq {c : SieveCache K V} {k : K} (v : V) {n : Node K V}
    (hm : mfind c.map k = some n) :
    c.insert k v =
      ({ c with map := mset c.map k (fun nn => { nn with visited := true, value := v }) },
        (false, true)) := by
  simp only [SieveCache.insert, hm]

theorem insert_new_eq {c : SieveCache K V} {k : K} {v : V}
    (hm : mfind c.map k = none) (hcap : ¬ c.capacity ≤ c.len) :
    c.insert k v = (addOut c k v, (true, true)) := by
  simp only [SieveCache.insert, hm, if_neg hcap]
  rfl

theorem insert_full_eq {c : SieveCache K V} {k : K} (v : V)
    (hm : mfind c.map k = none) (hcap : c.capacity ≤ c.len)
    (hev : (c.evict).2 = true) :
    c.insert k v = (addOut (c.evict).1 k v, (true, true)) := by
  rcases hev2 : c.evict with ⟨c1, flag⟩
  have hflag : flag = true := by
    rw [hev2] at hev
    exact hev
  subst hflag
  simp only [SieveCache.insert, hm, if_pos hcap, hev2]
  rfl

theorem insert_fail_eq {c : SieveCache K V} {k : K} (v : V)
    (hm : mfind c.map k = none) (hcap : c.capacity ≤ c.len)
    (hev : (c.evict).2 = false) :
    c.insert k v = ((c.evict).1, (false, false)) := by
  rcases hev2 : c.evict with ⟨c1, flag⟩
  have hflag : flag = false := by
    rw [hev2] at hev
    exact hev
  subst hflag
  simp only [SieveCache.insert, hm, if_pos hcap, hev2]

theorem remove_absent_eq {c : SieveCache K V} {k : K}
    (hm : mfind c.map k = none) : c.remove k = (c, none) := by
  simp only [SieveCache.remove, hm]

theorem remove_eq_hand {c : SieveCache K V} {k : K} {n : Node K V}
    (hm : mfind c.map k = some n) (hh : c.hand = some k) :
    c.remove k =
      ({ (SieveCache.remove_node
            { c with hand := n.prev, map := mremove c.map k } n) with
          len := (SieveCache.remove_node
            { c with hand := n.prev, map := mremove c.map k } n).len - 1 },
        some n.value) := by
  simp only [SieveCache.remove, hm, if_pos hh]

theorem remove_eq_nohand {c : SieveCache K V} {k : K} {n : Node K V}
    (hm : mfind c.map k = some n) (hh : ¬ c.hand = some k) :
    c.remove k =
      ({ (SieveCache.remove_node { c with map := mremove c.map k } n) with
          len := (SieveCache.remove_node
            { c with map := mremove c.map k } n).len - 1 },
        some n.value) := by
  simp only [SieveCache.remove, hm, if_neg hh]

theorem add_result {c1 : SieveCache K V} {ks1 : List K} {k : K} {v : V}
    (lw1 : ListWF c1.map c1.head c1.tail ks1) (hm1 : mfind c1.map k = none) :
    ListWF (addOut c1 k v).map (addOut c1 k v).head (addOut c1 k v).tail (k :: ks1) ∧
    (addOut c1 k v).len = c1.len + 1 ∧
    (addOut c1 k v).hand = c1.hand ∧
    (addOut c1 k v).capacity = c1.capacity ∧
    (addOut c1 k v).evict_condition = c1.evict_condition ∧
    (addOut c1 k v).head = some k ∧
    valAt (addOut c1 k v).map k = some v ∧
    visAt (addOut c1 k v).map k = some false ∧
    (∀ k', k' ≠ k →
      valAt (addOut c1 k v).map k' = valAt c1.map k' ∧
      visAt (addOut c1 k v).map k' = visAt c1.map k') := by
  have hknot : k ∉ ks1 := by
    intro hmem
    have := mfind_eq_none_iff.mp hm1
    exact this (lw1.perm.mem_iff.mpr hmem)
  have haddmap : (addOut c1 k v).map =
      ({ key := k, value := v, prev := none, next := c1.head, visited := false } : Node K V) ::
        (match c1.head with
          | some hk => mset c1.map hk (fun x => { x with prev := some k })
          | none => c1.map) := by
    rw [addOut, add_node_eval]
  have hmfindk : ∀ k', mfind (addOut c1 k v).map k' =
      if k = k' then
        some { key := k, value := v, prev := none, next := c1.head, visited := false }
      else
        (match c1.head with
          | some hk => mfind (mset c1.map hk (fun x => { x with prev := some k })) k'
          | none => mfind c1.map k') := by
    intro k'
    rw [haddmap, mfind]
    rcases c1.head with _ | hk <;> rfl
  have hhead : (addOut c1 k v).head = some k := by
    rw [addOut, add_node_eval]
  have htail : (addOut c1 k v).tail = if c1.tail.isNone then some k else c1.tail := by
    rw [addOut, add_node_eval]
  have hmfind_pres : ∀ k', k' ≠ k →
      valAt (addOut c1 k v).map k' = valAt c1.map k' ∧
      visAt (addOut c1 k v).map k' = visAt c1.map k' := by
    intro k' hk'
    have hne : ¬ k = k' := fun he => hk' he.symm
    rw [valAt, visAt, valAt, visAt, hmfindk k', if_neg hne]
    rcases hh1 : c1.head with _ | hk
    · exact ⟨rfl, rfl⟩
    · simp only []
      by_cases hkh : k' = hk
      · subst hkh
        rw [mfind_mset_prev, if_pos rfl]
        cases mfind c1.map k' <;> exact ⟨rfl, rfl⟩
      · rw [mfind_mset_prev, if_neg hkh]
        exact ⟨rfl, rfl⟩
  refine ⟨?_, ?_, ?_, ?_, ?_, hhead, ?_, ?_, hmfind_pres⟩
  · refine ⟨?_, ?_, ?_, ?_, ?_⟩
    · exact List.nodup_cons.mpr ⟨hknot, lw1.nodup⟩
    · rw [dseg_cons]
      refine ⟨{ key := k, value := v, prev := none, next := c1.head, visited := false },
        ?_, rfl, ?_, ?_⟩
      · rw [hmfindk k, if_pos rfl]
      · rw [lw1.head_eq, headOr_none]
      · rcases hh1 : c1.head with _ | hk
        · have hks1 : ks1 = [] := by
            have := lw1.head_eq
            rw [hh1] at this
            exact (List.head?_eq_none_iff.mp this.symm)
          subst hks1
          exact dseg_nil
        · have hks1 : ∃ rest, ks1 = hk :: rest := by
            cases ks1 with
            | nil =>
              have := lw1.head_eq
              rw [hh1] at this
              cases this
            | cons x xs =>
              have := lw1.head_eq
              rw [hh1] at this
              injection this.symm with hx
              exact ⟨xs, by rw [hx]⟩
          obtain ⟨rest, hrest⟩ := hks1
          have hseg1 := lw1.seg
          rw [hrest] at hseg1
          have hknotrest : hk ∉ rest := by
            have hnd := lw1.nodup
            rw [hrest] at hnd
            exact (List.nodup_cons.mp hnd).1
          rw [hrest]
          refine dseg_change_p hseg1 ?_ ?_
          · intro a ha
            have hak : ¬ k = a := by
              intro he
              exact hknot (by rw [hrest, he]; exact List.mem_cons_of_mem hk ha)
            have hahk : ¬ a = hk := fun he => hknotrest (he ▸ ha)
            rw [hmfindk a, if_neg hak, hh1]
            simp only []
            rw [mfind_mset_prev, if_neg hahk]
          · obtain ⟨n₀, hn₀⟩ := dseg_find hseg1 (List.mem_cons_self hk rest)
            refine ⟨n₀, hn₀, ?_⟩
            have hkhk : ¬ k = hk := by
              intro he
              exact hknot (by rw [hrest, he]; exact List.mem_cons_self hk rest)
            rw [hmfindk hk, if_neg hkhk, hh1]
            simp only []
            rw [mfind_mset_prev, if_pos rfl, hn₀]
            rfl
    · rw [hhead]
      rfl
    · rw [htail]
      cases ks1 with
      | nil =>
        have h1 : c1.tail = none := by
          rw [lw1.tail_eq]
          rfl
        rw [h1]
        rfl
      | cons x xs =>
        have h1 : c1.tail = (x :: xs).getLast? := lw1.tail_eq
        rcases hgl : (x :: xs).getLast? with _ | t
        · simp at hgl
        · rw [h1, hgl, List.getLast?_cons_cons, hgl]
          rfl
    · rw [haddmap]
      have hkeys1 : keys
          (({ key := k, value := v, prev := none, next := c1.head, visited := false } : Node K V) ::
            (match c1.head with
              | some hk => mset c1.map hk (fun x => { x with prev := some k })
              | none => c1.map)) =
          k :: keys c1.map := by
        rcases c1.head with _ | hk
        · rfl
        · simp only []
          rw [keys, List.map_cons, ← keys, keys_mset_prev]
      rw [hkeys1]
      exact lw1.perm.cons k
  · rw [addOut, add_node_eval]
  · rw [addOut, add_node_eval]
  · rw [addOut, add_node_eval]
  · rw [addOut, add_node_eval]
  · rw [valAt, hmfindk k, if_pos rfl]
    rfl
  · rw [visAt, hmfindk k, if_pos rfl]
    rfl

/-! ## Invariant preservation -/

theorem mfind_mem_keys {m : List (Node K V)} {k : K} {n : Node K V}
    (h : mfind m k = some n) : k ∈ keys m := by
  by_contra hmem
  rw [mfind_eq_none_iff.mpr hmem] at h
  cases h

theorem mem_erase_middle {x k : K} {as bs : List K} (hx : x ∈ as ++ k :: bs)
    (hne : x ≠ k) : x ∈ as ++ bs := by
  rcases List.mem_append.mp hx with h1 | h1
  · exact List.mem_append_left bs h1
  · rcases List.mem_cons.mp h1 with rfl | h2
    · exact absurd rfl hne
    · exact List.mem_append_right as h2

theorem get_absent_eq {c : SieveCache K V} {k : K}
    (hm : mfind c.map k = none) : c.get k = (c, none) := by
  simp only [SieveCache.get, hm]

theorem get_present_eq {c : SieveCache K V} {k : K} {n : Node K V}
    (hm : mfind c.map k = some n) :
    c.get k = ({ c with map := mset c.map k (fun nn => { nn with visited := true }) },
      some n.value) := by
  simp only [SieveCache.get, hm]

theorem get_mut_absent_eq {c : SieveCache K V} {k : K}
    (hm : mfind c.map k = none) : c.get_mut k = (c, none) := by
  simp only [SieveCache.get_mut, hm]

theorem get_mut_present_eq {c : SieveCache K V} {k : K} {n : Node K V}
    (hm : mfind c.map k = some n) :
    c.get_mut k = ({ c with map := mset c.map k (fun nn => { nn with visited := true }) },
      some n.value) := by
  simp only [SieveCache.get_mut, hm]

theorem wf_get {c : SieveCache K V} {ks : List K} (hwf : WF c ks) (k : K) :
    WF (c.get k).1 ks := by
  rcases hm : mfind c.map k with _ | n
  · rw [get_absent_eq hm]
    exact hwf
  · rw [get_present_eq hm]
    exact ⟨listWF_mset_kpn (fun x => ⟨rfl, rfl, rfl⟩) hwf.lw, hwf.len_eq,
      hwf.len_le, hwf.cap_pos, hwf.hand_mem⟩

theorem wf_get_mut {c : SieveCache K V} {ks : List K} (hwf : WF c ks) (k : K) :
    WF (c.get_mut k).1 ks := by
  rcases hm : mfind c.map k with _ | n
  · rw [get_mut_absent_eq hm]
    exact hwf
  · rw [get_mut_present_eq hm]
    exact ⟨listWF_mset_kpn (fun x => ⟨rfl, rfl, rfl⟩) hwf.lw, hwf.len_eq,
      hwf.len_le, hwf.cap_pos, hwf.hand_mem⟩

theorem wf_insert {c : SieveCache K V} {ks : List K} (hwf : WF c ks) (k : K) (v : V) :
    ∃ ks', WF (c.insert k v).1 ks' := by
  rcases hm : mfind c.map k with _ | n
  · by_cases hcap : c.capacity ≤ c.len
    · have hne : ks ≠ [] := by
        intro h0
        have hl := hwf.len_eq
        rw [h0] at hl
        simp at hl
        have h2 := hwf.cap_pos
        omega
      rcases hfv : firstVictim c.evict_condition c.map
          (scanOrder ks (c.hand.or c.tail)) with _ | kv
      · obtain ⟨hev2, hh, ht, hhd, hl, hc, he, hsh, _⟩ := evict_failed hwf hne hfv
        rw [insert_fail_eq v hm hcap hev2]
        refine ⟨ks, ?_, ?_, ?_, ?_, ?_⟩
        · rw [hh, ht]
          exact listWF_shapeEq hsh hwf.lw
        · rw [hl, hwf.len_eq]
        · rw [hl, hc]
          exact hwf.len_le
        · rw [hc]
          exact hwf.cap_pos
        · intro x hx
          rw [hhd] at hx
          exact hwf.hand_mem x hx
      · obtain ⟨n, as, bs, hn, hsplit, hev2, hhd, hprev, hl, hc, he, hnone,
          hvals, hlw⟩ := evict_found hwf hfv
        rw [insert_full_eq v hm hcap hev2]
        have hkkv : k ≠ kv := by
          intro he'
          rw [he', hn] at hm
          cases hm
        have hmev : mfind (c.evict).1.map k = none := by
          have hv := hvals k hkkv
          rw [valAt, valAt, hm] at hv
          exact Option.map_eq_none'.mp hv
        obtain ⟨hlw2, hlen2, hhand2, hcap2, hec2, _, _, _, _⟩ := add_result hlw hmev
        have hlks : c.len = as.length + (bs.length + 1) := by
          have h0 := hwf.len_eq
          rw [hsplit] at h0
          simpa using h0
        have harith1 : c.len - 1 + 1 = (k :: (as ++ bs)).length := by
          simp only [List.length_cons, List.length_append]
          omega
        have harith2 : c.len - 1 + 1 ≤ c.capacity := by
          have h2 := hwf.len_le
          omega
        refine ⟨k :: (as ++ bs), hlw2, ?_, ?_, ?_, ?_⟩
        · show (addOut (c.evict).1 k v).len = (k :: (as ++ bs)).length
          rw [hlen2, hl]
          exact harith1
        · show (addOut (c.evict).1 k v).len ≤ (addOut (c.evict).1 k v).capacity
          rw [hlen2, hl, hcap2, hc]
          exact harith2
        · show 0 < (addOut (c.evict).1 k v).capacity
          rw [hcap2, hc]
          exact hwf.cap_pos
        · intro x hx
          have hx0 : (addOut (c.evict).1 k v).hand = some x := hx
          rw [hhand2, hhd] at hx0
          have hmem : x ∈ as := mem_of_lastOr_none (hprev.symm.trans hx0)
          simp [hmem]
    · rw [insert_new_eq hm hcap]
      obtain ⟨hlw2, hlen2, hhand2, hcap2, hec2, _, _, _, _⟩ := add_result hwf.lw hm
      have h1 : c.len < c.capacity := Nat.not_le.mp hcap
      refine ⟨k :: ks, hlw2, ?_, ?_, ?_, ?_⟩
      · show (addOut c k v).len = (k :: ks).length
        rw [hlen2, hwf.len_eq]
        simp
      · show (addOut c k v).len ≤ (addOut c k v).capacity
        rw [hlen2, hcap2]
        omega
      · show 0 < (addOut c k v).capacity
        rw [hcap2]
        exact hwf.cap_pos
      · intro x hx
        have hx0 : (addOut c k v).hand = some x := hx
        rw [hhand2] at hx0
        exact List.mem_cons_of_mem k (hwf.hand_mem x hx0)
  · rw [insert_existing_eq v hm]
    exact ⟨ks, listWF_mset_kpn (fun x => ⟨rfl, rfl, rfl⟩) hwf.lw, hwf.len_eq,
      hwf.len_le, hwf.cap_pos, hwf.hand_mem⟩

theorem wf_remove {c : SieveCache K V} {ks : List K} (hwf : WF c ks) (k : K) :
    ∃ ks', WF (c.remove k).1 ks' := by
  rcases hm : mfind c.map k with _ | n
  · rw [remove_absent_eq hm]
    exact ⟨ks, hwf⟩
  · have hkmem : k ∈ ks := hwf.lw.perm.mem_iff.mp (mfind_mem_keys hm)
    obtain ⟨as, bs, hsplit⟩ := List.append_of_mem hkmem
    have hlks : c.len = as.length + (bs.length + 1) := by
      have h0 := hwf.len_eq
      rw [hsplit] at h0
      simpa using h0
    by_cases hh : c.hand = some k
    · rw [remove_eq_hand hm hh]
      obtain ⟨hlw', hnone', hvals', hprev', hnext'⟩ :=
        detach_spec { c with hand := n.prev } hwf.lw hsplit hm
          (rfl : SieveCache.remove_node
              { c with hand := n.prev, map := mremove c.map k } n =
            SieveCache.remove_node
              { { c with hand := n.prev } with
                  map := mremove ({ c with hand := n.prev }).map k } n)
      have hTlen : (SieveCache.remove_node
          { c with hand := n.prev, map := mremove c.map k } n).len = c.len :=
        remove_node_len _ _
      have hTcap : (SieveCache.remove_node
          { c with hand := n.prev, map := mremove c.map k } n).capacity =
          c.capacity :=
        remove_node_capacity _ _
      have hThand : (SieveCache.remove_node
          { c with hand := n.prev, map := mremove c.map k } n).hand = n.prev :=
        remove_node_hand _ _
      have harith1 : c.len - 1 = (as ++ bs).length := by
        simp only [List.length_append]
        omega
      have harith2 : c.len - 1 ≤ c.capacity := by
        have h2 := hwf.len_le
        omega
      refine ⟨as ++ bs, hlw', ?_, ?_, ?_, ?_⟩
      · show (SieveCache.remove_node
            { c with hand := n.prev, map := mremove c.map k } n).len - 1 =
          (as ++ bs).length
        rw [hTlen]
        exact harith1
      · show (SieveCache.remove_node
              { c with hand := n.prev, map := mremove c.map k } n).len - 1 ≤
            (SieveCache.remove_node
              { c with hand := n.prev, map := mremove c.map k } n).capacity
        rw [hTlen, hTcap]
        exact harith2
      · show 0 < (SieveCache.remove_node
            { c with hand := n.prev, map := mremove c.map k } n).capacity
        rw [hTcap]
        exact hwf.cap_pos
      · intro x hx
        have hx' : (SieveCache.remove_node
            { c with hand := n.prev, map := mremove c.map k } n).hand = some x := hx
        rw [hThand] at hx'
        have hmem : x ∈ as := mem_of_lastOr_none (hprev'.symm.trans hx')
        exact List.mem_append_left bs hmem
    · rw [remove_eq_nohand hm hh]
      obtain ⟨hlw', hnone', hvals', hprev', hnext'⟩ :=
        detach_spec c hwf.lw hsplit hm
          (rfl : SieveCache.remove_node { c with map := mremove c.map k } n =
            SieveCache.remove_node { c with map := mremove c.map k } n)
      have hTlen : (SieveCache.remove_node
          { c with map := mremove c.map k } n).len = c.len :=
        remove_node_len _ _
      have hTcap : (SieveCache.remove_node
          { c with map := mremove c.map k } n).capacity = c.capacity :=
        remove_node_capacity _ _
      have hThand : (SieveCache.remove_node
          { c with map := mremove c.map k } n).hand = c.hand :=
        remove_node_hand _ _
      have harith1 : c.len - 1 = (as ++ bs).length := by
        simp only [List.length_append]
        omega
      have harith2 : c.len - 1 ≤ c.capacity := by
        have h2 := hwf.len_le
        omega
      refine ⟨as ++ bs, hlw', ?_, ?_, ?_, ?_⟩
      · show (SieveCache.remove_node
            { c with map := mremove c.map k } n).len - 1 = (as ++ bs).length
        rw [hTlen]
        exact harith1
      · show (SieveCache.remove_node
              { c with map := mremove c.map k } n).len - 1 ≤
            (SieveCache.remove_node { c with map := mremove c.map k } n).capacity
        rw [hTlen, hTcap]
        exact harith2
      · show 0 < (SieveCache.remove_node
            { c with map := mremove c.map k } n).capacity
        rw [hTcap]
        exact hwf.cap_pos
      · intro x hx
        have hx' : (SieveCache.remove_node
            { c with map := mremove c.map k } n).hand = some x := hx
        rw [hThand] at hx'
        have hxk : x ≠ k := by
          intro he
          rw [he] at hx'
          exact hh hx'
        have hxks : x ∈ ks := hwf.hand_mem x hx'
        rw [hsplit] at hxks
        exact mem_erase_middle hxks hxk

theorem wf_applyOp {c : SieveCache K V} {ks : List K} (hwf : WF c ks) (op : Op K V) :
    ∃ ks', WF (applyOp c op) ks' := by
  cases op with
  | ins k v => exact wf_insert hwf k v
  | read k => exact ⟨ks, wf_get hwf k⟩
  | readMut k => exact ⟨ks, wf_get_mut hwf k⟩
  | del k => exact wf_remove hwf k
  | has k => exact ⟨ks, hwf⟩

theorem wf_run {c : SieveCache K V} {ks : List K} (hwf : WF c ks)
    (ops : List (Op K V)) : ∃ ks', WF (run c ops) ks' := by
  induction ops generalizing c ks with
  | nil => exact ⟨ks, hwf⟩
  | cons op ops ih =>
    obtain ⟨ks1, h1⟩ := wf_applyOp hwf op
    exact ih h1

theorem wf_new {cap : Nat} {c : SieveCache K V}
    (hnew : SieveCache.new cap = Except.ok c) : WF c [] := by
  rw [SieveCache.new] at hnew
  by_cases hcap : cap = 0
  · rw [if_pos hcap] at hnew
    cases hnew
  · rw [if_neg hcap] at hnew
    injection hnew with hnew
    subst hnew
    refine ⟨⟨List.nodup_nil, dseg_nil, rfl, rfl, List.Perm.refl _⟩, rfl, ?_, ?_, ?_⟩
    · exact Nat.zero_le cap
    · exact Nat.pos_of_ne_zero hcap
    · intro x hx
      cases hx

theorem wf_with_evict {cap : Nat} {p : K → V → Bool} {c : SieveCache K V}
    (hnew : SieveCache.with_evict_condition cap p = Except.ok c) : WF c [] := by
  rw [SieveCache.with_evict_condition] at hnew
  by_cases hcap : cap = 0
  · rw [if_pos hcap] at hnew
    cases hnew
  · rw [if_neg hcap] at hnew
    injection hnew with hnew
    subst hnew
    refine ⟨⟨List.nodup_nil, dseg_nil, rfl, rfl, List.Perm.refl _⟩, rfl, ?_, ?_, ?_⟩
    · exact Nat.zero_le cap
    · exact Nat.pos_of_ne_zero hcap
    · intro x hx
      cases hx

/-! ## Claim theorems -/

theorem mfind_mset_valvis (m : List (Node K V)) (q : K) (v : V) (k' : K) :
    mfind (mset m q (fun nn => { nn with visited := true, value := v })) k' =
      if k' = q then (mfind m q).map (fun nn => { nn with visited := true, value := v })
      else mfind m k' :=
  mfind_mset m q (fun nn => { nn with visited := true, value := v }) (fun _ => rfl) k'

/-- C6: updating an existing key rewrites the value in place, marks the entry
visited, keeps its list links and every other entry untouched, keeps `len`,
returns `(false, true)`, and a subsequent `get` yields the new value. -/
theorem sieve_C6 {c : SieveCache K V} {k : K} {v2 : V} {n : Node K V}
    (hm : mfind c.map k = some n) :
    c.insert k v2 =
      ({ c with map := mset c.map k (fun nn => { nn with visited := true, value := v2 }) },
        (false, true)) ∧
    mfind (c.insert k v2).1.map k = some { n with visited := true, value := v2 } ∧
    (∀ k', k' ≠ k → mfind (c.insert k v2).1.map k' = mfind c.map k') ∧
    (c.insert k v2).1.len = c.len ∧
    (c.insert k v2).1.head = c.head ∧ (c.insert k v2).1.tail = c.tail ∧
    (c.insert k v2).1.hand = c.hand ∧
    ((c.insert k v2).1.get k).2 = some v2 := by
  have heq := insert_existing_eq v2 hm
  refine ⟨heq, ?_, ?_, by rw [heq], by rw [heq], by rw [heq], by rw [heq], ?_⟩
  · rw [heq]
    show mfind (mset c.map k (fun nn => { nn with visited := true, value := v2 })) k =
      some { n with visited := true, value := v2 }
    rw [mfind_mset_valvis, if_pos rfl, hm]
    rfl
  · intro k' hk'
    rw [heq]
    show mfind (mset c.map k (fun nn => { nn with visited := true, value := v2 })) k' =
      mfind c.map k'
    rw [mfind_mset_valvis, if_neg hk']
  · rw [heq]
    have hm2 : mfind (mset c.map k
        (fun nn => { nn with visited := true, value := v2 })) k =
        some { n with visited := true, value := v2 } := by
      rw [mfind_mset_valvis, if_pos rfl, hm]
      rfl
    rw [SieveCache.get.eq_def]
    simp only [hm2]

/-- C7: removing a present key returns its stored value, detaches the entry
from the map and the ordering list, decrements `len`, and repairs `hand` when
it pointed at the removed node; removing an absent key changes nothing. -/
theorem sieve_C7 {c : SieveCache K V} {ks : List K} (hwf : WF c ks) (k : K) :
    (∀ n, mfind c.map k = some n →
      (c.remove k).2 = some n.value ∧
      mfind (c.remove k).1.map k = none ∧
      (c.remove k).1.len = c.len - 1 ∧
      (c.hand = some k → (c.remove k).1.hand = n.prev) ∧
      (c.hand ≠ some k → (c.remove k).1.hand = c.hand) ∧
      (∀ k', k' ≠ k → valAt (c.remove k).1.map k' = valAt c.map k') ∧
      ∃ as bs, ks = as ++ k :: bs ∧
        ListWF (c.remove k).1.map (c.remove k).1.head (c.remove k).1.tail
          (as ++ bs)) ∧
    (mfind c.map k = none → c.remove k = (c, none)) := by
  constructor
  · intro n hm
    have hkmem : k ∈ ks := hwf.lw.perm.mem_iff.mp (mfind_mem_keys hm)
    obtain ⟨as, bs, hsplit⟩ := List.append_of_mem hkmem
    by_cases hh : c.hand = some k
    · have heq := remove_eq_hand hm hh
      obtain ⟨hlw', hnone', hvals', hprev', hnext'⟩ :=
        detach_spec { c with hand := n.prev } hwf.lw hsplit hm
          (rfl : SieveCache.remove_node
              { c with hand := n.prev, map := mremove c.map k } n =
            SieveCache.remove_node
              { { c with hand := n.prev } with
                  map := mremove ({ c with hand := n.prev }).map k } n)
      have hTlen : (SieveCache.remove_node
          { c with hand := n.prev, map := mremove c.map k } n).len = c.len :=
        remove_node_len _ _
      have hThand : (SieveCache.remove_node
          { c with hand := n.prev, map := mremove c.map k } n).hand = n.prev :=
        remove_node_hand _ _
      refine ⟨by rw [heq], ?_, ?_, ?_, ?_, ?_, as, bs, hsplit, ?_⟩
      · rw [heq]
        exact hnone'
      · rw [heq]
        show (SieveCache.remove_node
          { c with hand := n.prev, map := mremove c.map k } n).len - 1 = c.len - 1
        rw [hTlen]
      · intro _
        rw [heq]
        exact hThand
      · intro hcontra
        exact absurd hh hcontra
      · intro k' hk'
        rw [heq]
        exact (hvals' k' hk').1
      · rw [heq]
        exact hlw'
    · have heq := remove_eq_nohand hm hh
      obtain ⟨hlw', hnone', hvals', hprev', hnext'⟩ :=
        detach_spec c hwf.lw hsplit hm
          (rfl : SieveCache.remove_node { c with map := mremove c.map k } n =
            SieveCache.remove_node { c with map := mremove c.map k } n)
      have hTlen : (SieveCache.remove_node
          { c with map := mremove c.map k } n).len = c.len :=
        remove_node_len _ _
      have hThand : (SieveCache.remove_node
          { c with map := mremove c.map k } n).hand = c.hand :=
        remove_node_hand _ _
      refine ⟨by rw [heq], ?_, ?_, ?_, ?_, ?_, as, bs, hsplit, ?_⟩
      · rw [heq]
        exact hnone'
      · rw [heq]
        show (SieveCache.remove_node
          { c with map := mremove c.map k } n).len - 1 = c.len - 1
        rw [hTlen]
      · intro hcontra
        exact absurd hcontra hh
      · intro _
        rw [heq]
        exact hThand
      · intro k' hk'
        rw [heq]
        exact (hvals' k' hk').1
      · rw [heq]
        exact hlw'
  · intro hm
    exact remove_absent_eq hm

/-- C8: both constructors reject exactly capacity zero with the invalid
capacity error, and otherwise build the empty cache with the given capacity,
the second installing the supplied predicate. -/
theorem sieve_C8 (capacity : Nat) (p : K → V → Bool) :
    (capacity = 0 →
      (SieveCache.new capacity : Except String (SieveCache K V)) =
        .error "capacity must be greater than 0" ∧
      SieveCache.with_evict_condition capacity p =
        (.error "capacity must be greater than 0" :
          Except String (SieveCache K V))) ∧
    (capacity ≠ 0 →
      (SieveCache.new capacity : Except String (SieveCache K V)) =
        .ok { map := [], head := none, tail := none, hand := none,
              capacity := capacity, len := 0, evict_condition := none } ∧
      SieveCache.with_evict_condition capacity p =
        .ok { map := [], head := none, tail := none, hand := none,
              capacity := capacity, len := 0, evict_condition := some p }) := by
  constructor
  · intro h0
    rw [SieveCache.new, SieveCache.with_evict_condition, if_pos h0, if_pos h0]
    exact ⟨rfl, rfl⟩
  · intro h0
    rw [SieveCache.new, SieveCache.with_evict_condition, if_neg h0, if_neg h0]
    exact ⟨rfl, rfl⟩

/-- C9: `get` and `get_mut` on a present key return the stored value and mark
the entry visited, leaving everything else unchanged; on an absent key they
return `none` and leave the cache untouched. -/
theorem sieve_C9 {c : SieveCache K V} (k : K) :
    (∀ n, mfind c.map k = some n →
      (c.get k).2 = some n.value ∧ (c.get_mut k).2 = some n.value ∧
      (c.get k).1 = (c.get_mut k).1 ∧
      visAt (c.get k).1.map k = some true ∧
      valAt (c.get k).1.map k = some n.value ∧
      (∀ k', k' ≠ k → mfind (c.get k).1.map k' = mfind c.map k') ∧
      (c.get k).1.head = c.head ∧ (c.get k).1.tail = c.tail ∧
      (c.get k).1.hand = c.hand ∧ (c.get k).1.len = c.len) ∧
    (mfind c.map k = none → c.get k = (c, none) ∧ c.get_mut k = (c, none)) := by
  constructor
  · intro n hm
    have heq := get_present_eq hm
    have heq' := get_mut_present_eq hm
    have hm2 : mfind (mset c.map k (fun nn => { nn with visited := true })) k =
        some { n with visited := true } := by
      rw [mfind_mset_vis, if_pos rfl, hm]
      rfl
    refine ⟨by rw [heq], by rw [heq'], by rw [heq, heq'], ?_, ?_, ?_,
      by rw [heq], by rw [heq], by rw [heq], by rw [heq]⟩
    · rw [heq]
      show visAt (mset c.map k (fun nn => { nn with visited := true })) k = some true
      rw [visAt, hm2]
      rfl
    · rw [heq]
      show valAt (mset c.map k (fun nn => { nn with visited := true })) k =
        some n.value
      rw [valAt, hm2]
      rfl
    · intro k' hk'
      rw [heq]
      show mfind (mset c.map k (fun nn => { nn with visited := true })) k' =
        mfind c.map k'
      rw [mfind_mset_vis, if_neg hk']
  · intro hm
    exact ⟨get_absent_eq hm, get_mut_absent_eq hm⟩

/-- C10: `contains_key` is observationally pure despite its `&mut` receiver,
and `remove` on an absent key leaves the cache entirely unchanged. -/
theorem sieve_C10 {c : SieveCache K V} (k : K) :
    c.contains_key k = (c, (mfind c.map k).isSome) ∧
    (c.contains_key k).1 = c ∧
    (mfind c.map k = none → c.remove k = (c, none)) := by
  exact ⟨rfl, rfl, fun hm => remove_absent_eq hm⟩

theorem scanOrder_mem {ks as0 bs0 : List K} {h x : K} (hks : ks = as0 ++ h :: bs0)
    (hx : x ∈ (h :: as0.reverse) ++ bs0.reverse) : x ∈ ks := by
  subst hks
  rcases List.mem_append.mp hx with h1 | h1
  · rcases List.mem_cons.mp h1 with rfl | h2
    · simp
    · rw [List.mem_reverse] at h2
      simp [h2]
  · rw [List.mem_reverse] at h1
    simp [h1]

theorem firstVictim_none_of_blocked {c : SieveCache K V} {ks : List K}
    (hwf : WF c ks) (hne : ks ≠ [])
    (hblock : ∀ k' ∈ ks, victimAt c.evict_condition c.map k' = false) :
    firstVictim c.evict_condition c.map (scanOrder ks (c.hand.or c.tail)) = none := by
  obtain ⟨as0, h, bs0, hks, hstart, horder⟩ := start_split hwf hne
  rw [horder, firstVictim, List.find?_eq_none]
  intro x hx
  rw [hblock x (scanOrder_mem hks hx)]
  simp

/-- C1: with the cache at capacity and a fresh key arriving, the eviction
scan starts at `hand` (falling back to `tail`), tests entries with the
unvisited-and-predicate-approved criterion, and the first victim in scan
order is removed from both the map and the ordering list, `hand` becomes the
victim's former `prev`, and `len` drops by one; the triggering insert then
succeeds and reports a fresh insertion. -/
theorem sieve_C1 {c : SieveCache K V} {ks : List K} {kv knew : K} {v : V}
    (hwf : WF c ks) (hfull : c.len = c.capacity)
    (hnew : mfind c.map knew = none)
    (hfv : firstVictim c.evict_condition c.map
      (scanOrder ks (c.hand.or c.tail)) = some kv) :
    ∃ n as bs,
      mfind c.map kv = some n ∧ ks = as ++ kv :: bs ∧
      (c.evict).2 = true ∧
      mfind (c.evict).1.map kv = none ∧
      (c.evict).1.hand = n.prev ∧ n.prev = lastOr as none ∧
      (c.evict).1.len = c.len - 1 ∧
      ListWF (c.evict).1.map (c.evict).1.head (c.evict).1.tail (as ++ bs) ∧
      (c.insert knew v).2 = (true, true) ∧
      mfind (c.insert knew v).1.map kv = none := by
  obtain ⟨n, as, bs, hn, hsplit, hev2, hhd, hprev, hl, hc, he, hnone, hvals, hlw⟩ :=
    evict_found hwf hfv
  have hcap : c.capacity ≤ c.len := le_of_eq hfull.symm
  have heqI := insert_full_eq v hnew hcap hev2
  have hkkv : knew ≠ kv := by
    intro he'
    rw [he', hn] at hnew
    cases hnew
  have hmev : mfind (c.evict).1.map knew = none := by
    have hv := hvals knew hkkv
    rw [valAt, valAt, hnew] at hv
    exact Option.map_eq_none'.mp hv
  refine ⟨n, as, bs, hn, hsplit, hev2, hnone, hhd, hprev, hl, hlw, ?_, ?_⟩
  · rw [heqI]
  · rw [heqI]
    obtain ⟨_, _, _, _, _, _, _, _, hpres⟩ := add_result hlw hmev
    have hv := (hpres kv (fun he' => hkkv he'.symm)).1
    have h0 : valAt (c.evict).1.map kv = none := by
      rw [valAt, hnone]
      rfl
    show mfind (addOut (c.evict).1 knew v).map kv = none
    have h2 : valAt (addOut (c.evict).1 knew v).map kv = none := by
      rw [hv, h0]
    rw [valAt] at h2
    exact Option.map_eq_none'.mp h2

/-- C2: when the cache is full and every entry is shielded from eviction, an
insert of a fresh key fails as a normal return value `(false, false)`: the
key is not added, and the length, key set and stored values of the map are
exactly as before. -/
theorem sieve_C2 {c : SieveCache K V} {ks : List K} {k : K} {v : V}
    (hwf : WF c ks) (hfull : c.len = c.capacity)
    (hnew : mfind c.map k = none)
    (hblock : ∀ k' ∈ ks, victimAt c.evict_condition c.map k' = false) :
    (c.insert k v).2 = (false, false) ∧
    mfind (c.insert k v).1.map k = none ∧
    (c.insert k v).1.len = c.len ∧
    keys (c.insert k v).1.map = keys c.map ∧
    (∀ k', valAt (c.insert k v).1.map k' = valAt c.map k') ∧
    (c.insert k v).1.head = c.head ∧ (c.insert k v).1.tail = c.tail ∧
    (c.insert k v).1.hand = c.hand := by
  have hne : ks ≠ [] := by
    intro h0
    have hl := hwf.len_eq
    rw [h0] at hl
    simp at hl
    have h2 := hwf.cap_pos
    omega
  have hcap : c.capacity ≤ c.len := le_of_eq hfull.symm
  have hnone := firstVictim_none_of_blocked hwf hne hblock
  obtain ⟨hev2, hh, ht, hhd, hl, hc, he, hsh, _⟩ := evict_failed hwf hne hnone
  have heqI := insert_fail_eq v hnew hcap hev2
  refine ⟨by rw [heqI], ?_, by rw [heqI]; exact hl, by rw [heqI]; exact hsh.1,
    ?_, by rw [heqI]; exact hh, by rw [heqI]; exact ht, by rw [heqI]; exact hhd⟩
  · rw [heqI]
    have h1 := shapeEq_mfind_isSome hsh k
    rw [hnew] at h1
    rcases hfind : mfind (c.evict).1.map k with _ | nn
    · rfl
    · rw [hfind] at h1
      cases h1
  · intro k'
    rw [heqI]
    exact shapeEq_valAt hsh k'

/-- C3: the eviction scan examines at most `len` entries, and when every
entry is shielded it fails, having cleared the visited bit of everything it
examined. -/
theorem sieve_C3 {c : SieveCache K V} {ks : List K} (hwf : WF c ks) :
    evictLoopSteps c.evict_condition c.tail c.map (c.hand.or c.tail) c.len ≤
      c.len ∧
    ((∀ k' ∈ ks, victimAt c.evict_condition c.map k' = false) → ks ≠ [] →
      (c.evict).2 = false ∧ clearedOn (c.evict).1.map ks) := by
  refine ⟨evictLoopSteps_le _ _ _ _ _, ?_⟩
  intro hblock hne
  have hnone := firstVictim_none_of_blocked hwf hne hblock
  obtain ⟨hev2, _, _, _, _, _, _, _, hclr⟩ := evict_failed hwf hne hnone
  exact ⟨hev2, hclr⟩

/-- C4: any operation sequence on a cache built by either constructor (with
or without an eviction predicate) preserves the invariants: the well-formed
doubly-linked list over exactly the map's keys, `len` equal to the number of
stored keys, `len` bounded by the capacity, and a `hand` that always
references a live entry. -/
theorem sieve_C4 {cap : Nat} {c0 : SieveCache K V} (p : K → V → Bool)
    (hnew : SieveCache.new cap = Except.ok c0 ∨
      SieveCache.with_evict_condition cap p = Except.ok c0)
    (ops : List (Op K V)) :
    ∃ ks, WF (run c0 ops) ks ∧
      (run c0 ops).len = (keys (run c0 ops).map).length ∧
      (run c0 ops).len ≤ (run c0 ops).capacity := by
  have hwf0 : WF c0 [] := hnew.elim (fun h => wf_new h) (fun h => wf_with_evict h)
  obtain ⟨ks, hwf⟩ := wf_run hwf0 ops
  refine ⟨ks, hwf, ?_, hwf.len_le⟩
  rw [hwf.len_eq]
  exact hwf.lw.perm.length_eq.symm

/-! ## Filling a cache with fresh keys (claim C5) -/

/-- Folding `insert` over a list of key/value pairs. -/
def insFold (c : SieveCache K V) (kvs : List (K × V)) : SieveCache K V :=
  kvs.foldl (fun cc kv => (cc.insert kv.1 kv.2).1) c

theorem new_fields {cap : Nat} {c0 : SieveCache K V}
    (hnew : SieveCache.new cap = Except.ok c0) :
    c0 = { map := [], head := none, tail := none, hand := none,
           capacity := cap, len := 0, evict_condition := none } ∧ 0 < cap := by
  rw [SieveCache.new] at hnew
  by_cases hcap : cap = 0
  · rw [if_pos hcap] at hnew
    cases hnew
  · rw [if_neg hcap] at hnew
    injection hnew with h
    exact ⟨h.symm, Nat.pos_of_ne_zero hcap⟩

theorem wf_addOut {c : SieveCache K V} {ks : List K} {k : K} (v : V)
    (hwf : WF c ks) (hm : mfind c.map k = none) (hroom : c.len < c.capacity) :
    WF (addOut c k v) (k :: ks) := by
  obtain ⟨hlw2, hlen2, hhand2, hcap2, hec2, _, _, _, _⟩ := add_result hwf.lw hm
  refine ⟨hlw2, ?_, ?_, ?_, ?_⟩
  · show (addOut c k v).len = (k :: ks).length
    rw [hlen2, hwf.len_eq]
    simp
  · show (addOut c k v).len ≤ (addOut c k v).capacity
    rw [hlen2, hcap2]
    omega
  · show 0 < (addOut c k v).capacity
    rw [hcap2]
    exact hwf.cap_pos
  · intro x hx
    have hx0 : (addOut c k v).hand = some x := hx
    rw [hhand2] at hx0
    exact List.mem_cons_of_mem k (hwf.hand_mem x hx0)

theorem fill_fresh :
    ∀ (kvs : List (K × V)) {c : SieveCache K V} {ks : List K},
      WF c ks →
      c.len + kvs.length ≤ c.capacity →
      (∀ kv ∈ kvs, kv.1 ∉ ks) →
      (kvs.map Prod.fst).Nodup →
      WF (insFold c kvs) ((kvs.map Prod.fst).reverse ++ ks) ∧
      (insFold c kvs).len = c.len + kvs.length ∧
      (insFold c kvs).hand = c.hand ∧
      (insFold c kvs).evict_condition = c.evict_condition ∧
      (insFold c kvs).capacity = c.capacity ∧
      (∀ kv ∈ kvs, valAt (insFold c kvs).map kv.1 = some kv.2 ∧
        visAt (insFold c kvs).map kv.1 = some false) ∧
      (∀ k', k' ∉ kvs.map Prod.fst →
        valAt (insFold c kvs).map k' = valAt c.map k' ∧
        visAt (insFold c kvs).map k' = visAt c.map k') := by
  intro kvs
  induction kvs with
  | nil =>
    intro c ks hwf _ _ _
    refine ⟨by simpa using hwf, by simp [insFold], rfl, rfl, rfl, ?_, ?_⟩
    · intro kv hkv
      cases hkv
    · intro k' _
      exact ⟨rfl, rfl⟩
  | cons kv0 kvs' ih =>
    intro c ks hwf hroom hfresh hnd
    have hm : mfind c.map kv0.1 = none := by
      apply mfind_eq_none_iff.mpr
      intro hk
      exact hfresh kv0 (List.mem_cons_self kv0 kvs')
        (hwf.lw.perm.mem_iff.mp hk)
    have hcap : ¬ c.capacity ≤ c.len := by
      simp only [List.length_cons] at hroom
      omega
    have hstep : insFold c (kv0 :: kvs') = insFold (addOut c kv0.1 kv0.2) kvs' := by
      rw [insFold, List.foldl_cons, insert_new_eq hm hcap]
      rfl
    have hk0notkvs : kv0.1 ∉ kvs'.map Prod.fst := (List.nodup_cons.mp hnd).1
    have hwf1 : WF (addOut c kv0.1 kv0.2) (kv0.1 :: ks) :=
      wf_addOut kv0.2 hwf hm (Nat.not_le.mp hcap)
    obtain ⟨_, hlen2, hhand2, hcap2, hec2, _, hvalk, hvisk, hpres⟩ :=
      add_result hwf.lw hm
    have hlen1 : (addOut c kv0.1 kv0.2).len + kvs'.length ≤
        (addOut c kv0.1 kv0.2).capacity := by
      rw [hlen2, hcap2]
      simp only [List.length_cons] at hroom
      omega
    have hfresh1 : ∀ kv ∈ kvs', kv.1 ∉ kv0.1 :: ks := by
      intro kv hkv hmem
      rcases List.mem_cons.mp hmem with he | hmem'
      · exact hk0notkvs (he ▸ List.mem_map_of_mem Prod.fst hkv)
      · exact hfresh kv (List.mem_cons_of_mem kv0 hkv) hmem'
    have hnd1 : (kvs'.map Prod.fst).Nodup := (List.nodup_cons.mp hnd).2
    obtain ⟨ihwf, ihlen, ihhand, ihec, ihcap, ihvals, ihpres⟩ :=
      ih hwf1 hlen1 hfresh1 hnd1
    have hlist : ((kv0 :: kvs').map Prod.fst).reverse ++ ks =
        (kvs'.map Prod.fst).reverse ++ (kv0.1 :: ks) := by
      simp
    refine ⟨?_, ?_, ?_, ?_, ?_, ?_, ?_⟩
    · rw [hstep, hlist]
      exact ihwf
    · rw [hstep, ihlen, hlen2]
      simp only [List.length_cons]
      omega
    · rw [hstep, ihhand, hhand2]
    · rw [hstep, ihec, hec2]
    · rw [hstep, ihcap, hcap2]
    · intro kv hkv
      rcases List.mem_cons.mp hkv with he | hkv'
      · subst he
        have := ihpres kv.1 hk0notkvs
        rw [hstep, this.1, this.2, hvalk, hvisk]
        exact ⟨rfl, rfl⟩
      · rw [hstep]
        exact ihvals kv hkv'
    · intro k' hk'
      have h1 : k' ≠ kv0.1 := by
        intro he
        exact hk' (he ▸ List.mem_cons_self kv0.1 (kvs'.map Prod.fst))
      have h2 : k' ∉ kvs'.map Prod.fst := fun hmem =>
        hk' (List.mem_cons_of_mem kv0.1 hmem)
      have h3 := ihpres k' h2
      have h4 := hpres k' h1
      rw [hstep, h3.1, h3.2, h4.1, h4.2]
      exact ⟨rfl, rfl⟩

/-- C5: starting from a cache of capacity `cap` built by `new` (no predicate),
inserting `cap + 1` pairwise-distinct keys with no intervening reads makes the
eviction scan start at the tail and select exactly the first-inserted key
`k0` as its first victim; afterwards `k0` is absent, every later key is
present with its value, and the length is back to `cap` (plain FIFO). -/
theorem sieve_C5 {cap : Nat} {c0 : SieveCache K V} {k0 : K} {v0 : V}
    {rest : List (K × V)}
    (hnew : SieveCache.new cap = Except.ok c0)
    (hlenr : rest.length = cap)
    (hnd : (k0 :: rest.map Prod.fst).Nodup) :
    firstVictim (insFold c0 ((k0, v0) :: rest.dropLast)).evict_condition
      (insFold c0 ((k0, v0) :: rest.dropLast)).map
      (scanOrder ((((k0, v0) :: rest.dropLast).map Prod.fst).reverse)
        ((insFold c0 ((k0, v0) :: rest.dropLast)).hand.or
          (insFold c0 ((k0, v0) :: rest.dropLast)).tail)) = some k0 ∧
    mfind (insFold c0 ((k0, v0) :: rest)).map k0 = none ∧
    (insFold c0 ((k0, v0) :: rest)).len = cap ∧
    ∀ kv ∈ rest, valAt (insFold c0 ((k0, v0) :: rest)).map kv.1 = some kv.2 := by
  obtain ⟨hc0, hcappos⟩ := new_fields hnew
  have hc0len : c0.len = 0 := by rw [hc0]
  have hc0cap : c0.capacity = cap := by rw [hc0]
  have hc0hand : c0.hand = none := by rw [hc0]
  have hc0ec : c0.evict_condition = none := by rw [hc0]
  have hne : rest ≠ [] := by
    intro h0
    rw [h0] at hlenr
    simp at hlenr
    omega
  obtain ⟨la, hla⟩ := Option.isSome_iff_exists.mp (List.getLast?_isSome.mpr hne)
  obtain ⟨init, hinit⟩ := List.getLast?_eq_some_iff.mp hla
  subst hinit
  rw [List.dropLast_concat]
  have hlinit : init.length + 1 = cap := by simpa using hlenr
  have hnd' := List.nodup_cons.mp hnd
  have hk0init : k0 ∉ init.map Prod.fst := by
    intro h
    exact hnd'.1 (by simp [h])
  have hk0la : k0 ≠ la.1 := by
    intro h
    exact hnd'.1 (by simp [h])
  have hndapp : (init.map Prod.fst ++ [la.1]).Nodup := by simpa using hnd'.2
  have hlainit : la.1 ∉ init.map Prod.fst := by
    intro hmem
    exact List.disjoint_of_nodup_append hndapp hmem (List.mem_singleton.mpr rfl)
  have hndinit : (init.map Prod.fst).Nodup := hndapp.of_append_left
  have hwf0 : WF c0 [] := wf_new hnew
  have hroom0 : c0.len + ((k0, v0) :: init).length ≤ c0.capacity := by
    rw [hc0len, hc0cap]
    simp only [List.length_cons]
    omega
  have hfresh0 : ∀ kv ∈ (k0, v0) :: init, kv.1 ∉ ([] : List K) := by
    intro kv _ h
    cases h
  have hnd0 : (((k0, v0) :: init).map Prod.fst).Nodup := by
    simp only [List.map_cons]
    exact List.nodup_cons.mpr ⟨hk0init, hndinit⟩
  obtain ⟨hwfS, hlenS, hhandS, hecS, hcapS, hvalsS, hpresS⟩ :=
    fill_fresh ((k0, v0) :: init) hwf0 hroom0 hfresh0 hnd0
  have hksS : ((((k0, v0) :: init).map Prod.fst).reverse ++ ([] : List K)) =
      (init.map Prod.fst).reverse ++ [k0] := by
    simp
  rw [hksS] at hwfS
  have hSlen : (insFold c0 ((k0, v0) :: init)).len = cap := by
    rw [hlenS, hc0len]
    simp only [List.length_cons]
    omega
  have hScap : (insFold c0 ((k0, v0) :: init)).capacity = cap := by
    rw [hcapS, hc0cap]
  have hShand : (insFold c0 ((k0, v0) :: init)).hand = none := by
    rw [hhandS, hc0hand]
  have hSec : (insFold c0 ((k0, v0) :: init)).evict_condition = none := by
    rw [hecS, hc0ec]
  have hStail : (insFold c0 ((k0, v0) :: init)).tail = some k0 := by
    rw [hwfS.lw.tail_eq]
    simp
  have hstartS0 : ((insFold c0 ((k0, v0) :: init)).hand.or
      (insFold c0 ((k0, v0) :: init)).tail) = some k0 := by
    rw [hShand, hStail]
    rfl
  have hk0rev : k0 ∉ (init.map Prod.fst).reverse := fun h =>
    hk0init (List.mem_reverse.mp h)
  have horderS : scanOrder ((init.map Prod.fst).reverse ++ [k0]) (some k0) =
      k0 :: init.map Prod.fst := by
    rw [scanOrder_some rfl hk0rev]
    simp
  have hvisk0 : visAt (insFold c0 ((k0, v0) :: init)).map k0 = some false :=
    (hvalsS (k0, v0) (List.mem_cons_self _ _)).2
  have hvick0 : victimAt (none : Option (K → V → Bool))
      (insFold c0 ((k0, v0) :: init)).map k0 = true := by
    rcases hfk0 : mfind (insFold c0 ((k0, v0) :: init)).map k0 with _ | n0
    · simp [visAt, hfk0] at hvisk0
    · simp only [visAt, hfk0, Option.map_some'] at hvisk0
      have hv : n0.visited = false := by simpa using hvisk0
      simp only [victimAt, hfk0]
      simp [isVictim, hv]
  have hfvS : firstVictim (insFold c0 ((k0, v0) :: init)).evict_condition
      (insFold c0 ((k0, v0) :: init)).map
      (scanOrder ((init.map Prod.fst).reverse ++ [k0])
        ((insFold c0 ((k0, v0) :: init)).hand.or
          (insFold c0 ((k0, v0) :: init)).tail)) = some k0 := by
    rw [hSec, hstartS0, horderS, firstVictim]
    exact List.find?_cons_of_pos _ hvick0
  have hkseq : (((k0, v0) :: init).map Prod.fst).reverse =
      (init.map Prod.fst).reverse ++ [k0] := by
    simp
  have hgoal1 : firstVictim (insFold c0 ((k0, v0) :: init)).evict_condition
      (insFold c0 ((k0, v0) :: init)).map
      (scanOrder ((((k0, v0) :: init).map Prod.fst).reverse)
        ((insFold c0 ((k0, v0) :: init)).hand.or
          (insFold c0 ((k0, v0) :: init)).tail)) = some k0 := by
    rw [hkseq]
    exact hfvS
  obtain ⟨n, as, bs, hfn, hks2, hev2, hhandE, hprevE, hlenE, hcapE, hecE,
    hgone, hvalpres, hlwE⟩ := evict_found hwfS hfvS
  have hmSla : mfind (insFold c0 ((k0, v0) :: init)).map la.1 = none := by
    apply mfind_eq_none_iff.mpr
    intro hk
    have hmem := hwfS.lw.perm.mem_iff.mp hk
    rcases List.mem_append.mp hmem with h1 | h2
    · exact hlainit (List.mem_reverse.mp h1)
    · exact hk0la (List.mem_singleton.mp h2).symm
  have hfull : (insFold c0 ((k0, v0) :: init)).capacity ≤
      (insFold c0 ((k0, v0) :: init)).len := by
    rw [hScap, hSlen]
  have hsplit : insFold c0 ((k0, v0) :: (init ++ [la])) =
      ((insFold c0 ((k0, v0) :: init)).insert la.1 la.2).1 := by
    rw [insFold, ← List.cons_append, List.foldl_append]
    rfl
  have hF : ((insFold c0 ((k0, v0) :: init)).insert la.1 la.2).1 =
      addOut ((insFold c0 ((k0, v0) :: init)).evict).1 la.1 la.2 := by
    rw [insert_full_eq la.2 hmSla hfull hev2]
  have hmEla : mfind ((insFold c0 ((k0, v0) :: init)).evict).1.map la.1 = none := by
    have h1 := hvalpres la.1 (fun he => hk0la he.symm)
    simp only [valAt, hmSla, Option.map_none'] at h1
    exact Option.map_eq_none'.mp h1
  obtain ⟨flw, flen, fhand, fcap, fec, fhead, fvalla, fvisla, fpres⟩ :=
    add_result hlwE hmEla
  refine ⟨hgoal1, ?_, ?_, ?_⟩
  · rw [hsplit, hF]
    have h2 := (fpres k0 hk0la).1
    simp only [valAt, hgone, Option.map_none'] at h2
    exact Option.map_eq_none'.mp h2
  · rw [hsplit, hF, flen, hlenE, hSlen]
    omega
  · intro kv hkv
    rw [hsplit, hF]
    rcases List.mem_append.mp hkv with h1 | h2
    · have hkne_la : kv.1 ≠ la.1 := by
        intro he
        exact hlainit (he ▸ List.mem_map_of_mem Prod.fst h1)
      have hkne_k0 : kv.1 ≠ k0 := by
        intro he
        exact hk0init (he ▸ List.mem_map_of_mem Prod.fst h1)
      rw [(fpres kv.1 hkne_la).1, hvalpres kv.1 hkne_k0,
        (hvalsS kv (List.mem_cons_of_mem (k0, v0) h1)).1]
    · have he : kv = la := List.mem_singleton.mp h2
      subst he
      exact fvalla

/-! ## Concrete instances for the claim theorems -/

/-- A two-entry cache at capacity: keys `1` (head, newest) and `0` (tail,
oldest), both unvisited, no hand, no predicate. -/
def cw2 : SieveCache Nat Nat :=
  { map := [⟨1, 11, none, some 0, false⟩, ⟨0, 10, some 1, none, false⟩],
    head := some 1, tail := some 0, hand := none,
    capacity := 2, len := 2, evict_condition := none }

/-- A one-entry cache at capacity whose single entry is visited, so that no
entry is evictable. -/
def cw1v : SieveCache Nat Nat :=
  { map := [⟨0, 10, none, none, true⟩],
    head := some 0, tail := some 0, hand := none,
    capacity := 1, len := 1, evict_condition := none }

/-- The empty cache produced by `new 1`. -/
def cnew1 : SieveCache Nat Nat :=
  { map := [], head := none, tail := none, hand := none,
    capacity := 1, len := 0, evict_condition := none }

/-- The empty cache produced by `new 2`. -/
def cnew2 : SieveCache Nat Nat :=
  { map := [], head := none, tail := none, hand := none,
    capacity := 2, len := 0, evict_condition := none }

/-- A sample eviction predicate. -/
def pless : Nat → Nat → Bool := fun _ v => decide (v < 6)

/-- The empty predicate-carrying cache produced by
`with_evict_condition 2 pless`. -/
def cwec2 : SieveCache Nat Nat :=
  { map := [], head := none, tail := none, hand := none,
    capacity := 2, len := 0, evict_condition := some pless }

theorem cw2_wf : WF cw2 [1, 0] := by
  refine ⟨⟨by decide, ?_, rfl, by decide, by decide⟩, rfl, by decide, by decide, ?_⟩
  · exact ⟨⟨1, 11, none, some 0, false⟩, rfl, rfl, rfl,
      ⟨0, 10, some 1, none, false⟩, rfl, rfl, rfl, trivial⟩
  · intro x hx
    cases hx

theorem cw1v_wf : WF cw1v [0] := by
  refine ⟨⟨by decide, ?_, rfl, by decide, by decide⟩, rfl, by decide, by decide, ?_⟩
  · exact ⟨⟨0, 10, none, none, true⟩, rfl, rfl, rfl, trivial⟩
  · intro x hx
    cases hx

/-! ## Witnesses -/

theorem sieve_C1_witness :
    WF cw2 [1, 0] ∧ cw2.len = cw2.capacity ∧ mfind cw2.map 2 = none ∧
    firstVictim cw2.evict_condition cw2.map
      (scanOrder [1, 0] (cw2.hand.or cw2.tail)) = some 0 ∧
    ∃ n as bs,
      mfind cw2.map 0 = some n ∧ ([1, 0] : List Nat) = as ++ 0 :: bs ∧
      (cw2.evict).2 = true ∧
      mfind (cw2.evict).1.map 0 = none ∧
      (cw2.evict).1.hand = n.prev ∧ n.prev = lastOr as none ∧
      (cw2.evict).1.len = cw2.len - 1 ∧
      ListWF (cw2.evict).1.map (cw2.evict).1.head (cw2.evict).1.tail (as ++ bs) ∧
      (cw2.insert 2 22).2 = (true, true) ∧
      mfind (cw2.insert 2 22).1.map 0 = none :=
  ⟨cw2_wf, rfl, by decide, by decide,
    sieve_C1 cw2_wf rfl (by decide) (by decide)⟩

theorem sieve_C2_witness :
    WF cw1v [0] ∧ cw1v.len = cw1v.capacity ∧ mfind cw1v.map 1 = none ∧
    (∀ k' ∈ ([0] : List Nat), victimAt cw1v.evict_condition cw1v.map k' = false) ∧
    ((cw1v.insert 1 11).2 = (false, false) ∧
      mfind (cw1v.insert 1 11).1.map 1 = none ∧
      (cw1v.insert 1 11).1.len = cw1v.len ∧
      keys (cw1v.insert 1 11).1.map = keys cw1v.map ∧
      (∀ k', valAt (cw1v.insert 1 11).1.map k' = valAt cw1v.map k') ∧
      (cw1v.insert 1 11).1.head = cw1v.head ∧
      (cw1v.insert 1 11).1.tail = cw1v.tail ∧
      (cw1v.insert 1 11).1.hand = cw1v.hand) :=
  ⟨cw1v_wf, rfl, by decide, by decide,
    sieve_C2 cw1v_wf rfl (by decide) (by decide)⟩

theorem sieve_C3_witness :
    WF cw1v [0] ∧
    (evictLoopSteps cw1v.evict_condition cw1v.tail cw1v.map
        (cw1v.hand.or cw1v.tail) cw1v.len ≤ cw1v.len ∧
      ((∀ k' ∈ ([0] : List Nat), victimAt cw1v.evict_condition cw1v.map k' = false) →
        ([0] : List Nat) ≠ [] →
        (cw1v.evict).2 = false ∧ clearedOn (cw1v.evict).1.map [0])) ∧
    ((cw1v.evict).2 = false ∧ clearedOn (cw1v.evict).1.map [0]) :=
  ⟨cw1v_wf, sieve_C3 cw1v_wf, (sieve_C3 cw1v_wf).2 (by decide) (by decide)⟩

theorem sieve_C4_witness :
    (SieveCache.new 2 = Except.ok cnew2 ∨
      SieveCache.with_evict_condition 2 pless = Except.ok cnew2) ∧
    (∃ ks, WF (run cnew2 [Op.ins 0 10, Op.read 0, Op.ins 1 11, Op.ins 2 12,
        Op.del 0]) ks ∧
      (run cnew2 [Op.ins 0 10, Op.read 0, Op.ins 1 11, Op.ins 2 12,
        Op.del 0]).len =
        (keys (run cnew2 [Op.ins 0 10, Op.read 0, Op.ins 1 11, Op.ins 2 12,
          Op.del 0]).map).length ∧
      (run cnew2 [Op.ins 0 10, Op.read 0, Op.ins 1 11, Op.ins 2 12,
        Op.del 0]).len ≤
        (run cnew2 [Op.ins 0 10, Op.read 0, Op.ins 1 11, Op.ins 2 12,
          Op.del 0]).capacity) ∧
    (SieveCache.new 2 = Except.ok cwec2 ∨
      SieveCache.with_evict_condition 2 pless = Except.ok cwec2) ∧
    (∃ ks, WF (run cwec2 [Op.ins 0 10, Op.ins 1 3, Op.ins 2 12,
        Op.del 1]) ks ∧
      (run cwec2 [Op.ins 0 10, Op.ins 1 3, Op.ins 2 12,
        Op.del 1]).len =
        (keys (run cwec2 [Op.ins 0 10, Op.ins 1 3, Op.ins 2 12,
          Op.del 1]).map).length ∧
      (run cwec2 [Op.ins 0 10, Op.ins 1 3, Op.ins 2 12,
        Op.del 1]).len ≤
        (run cwec2 [Op.ins 0 10, Op.ins 1 3, Op.ins 2 12,
          Op.del 1]).capacity) :=
  ⟨Or.inl rfl,
    @sieve_C4 Nat Nat instDecidableEqNat 2 cnew2 pless (Or.inl rfl)
      [Op.ins 0 10, Op.read 0, Op.ins 1 11, Op.ins 2 12, Op.del 0],
    Or.inr rfl,
    @sieve_C4 Nat Nat instDecidableEqNat 2 cwec2 pless (Or.inr rfl)
      [Op.ins 0 10, Op.ins 1 3, Op.ins 2 12, Op.del 1]⟩

theorem sieve_C5_witness :
    SieveCache.new 1 = Except.ok cnew1 ∧
    [((1 : Nat), (11 : Nat))].length = 1 ∧
    ((0 : Nat) :: [((1 : Nat), (11 : Nat))].map Prod.fst).Nodup ∧
    (firstVictim (insFold cnew1 [(0, 10)]).evict_condition
        (insFold cnew1 [(0, 10)]).map
        (scanOrder (([((0 : Nat), (10 : Nat))]).map Prod.fst).reverse
          ((insFold cnew1 [(0, 10)]).hand.or (insFold cnew1 [(0, 10)]).tail)) =
        some 0 ∧
      mfind (insFold cnew1 [(0, 10), (1, 11)]).map 0 = none ∧
      (insFold cnew1 [(0, 10), (1, 11)]).len = 1 ∧
      ∀ kv ∈ [((1 : Nat), (11 : Nat))],
        valAt (insFold cnew1 [(0, 10), (1, 11)]).map kv.1 = some kv.2) :=
  ⟨rfl, rfl, by decide,
    @sieve_C5 Nat Nat instDecidableEqNat 1 cnew1 0 10 [(1, 11)] rfl rfl (by decide)⟩

theorem sieve_C6_witness :
    mfind cw2.map 1 = some (⟨1, 11, none, some 0, false⟩ : Node Nat Nat) ∧
    (cw2.insert 1 99 =
      ({ cw2 with
          map := mset cw2.map 1 (fun nn => { nn with visited := true, value := 99 }) },
        (false, true)) ∧
    mfind (cw2.insert 1 99).1.map 1 =
      some { (⟨1, 11, none, some 0, false⟩ : Node Nat Nat) with
              visited := true, value := 99 } ∧
    (∀ k', k' ≠ 1 → mfind (cw2.insert 1 99).1.map k' = mfind cw2.map k') ∧
    (cw2.insert 1 99).1.len = cw2.len ∧
    (cw2.insert 1 99).1.head = cw2.head ∧ (cw2.insert 1 99).1.tail = cw2.tail ∧
    (cw2.insert 1 99).1.hand = cw2.hand ∧
    ((cw2.insert 1 99).1.get 1).2 = some 99) :=
  ⟨by decide, sieve_C6 (by decide)⟩

theorem sieve_C7_witness :
    WF cw2 [1, 0] ∧
    ((∀ n, mfind cw2.map 0 = some n →
        (cw2.remove 0).2 = some n.value ∧
        mfind (cw2.remove 0).1.map 0 = none ∧
        (cw2.remove 0).1.len = cw2.len - 1 ∧
        (cw2.hand = some 0 → (cw2.remove 0).1.hand = n.prev) ∧
        (cw2.hand ≠ some 0 → (cw2.remove 0).1.hand = cw2.hand) ∧
        (∀ k', k' ≠ 0 → valAt (cw2.remove 0).1.map k' = valAt cw2.map k') ∧
        ∃ as bs, ([1, 0] : List Nat) = as ++ 0 :: bs ∧
          ListWF (cw2.remove 0).1.map (cw2.remove 0).1.head (cw2.remove 0).1.tail
            (as ++ bs)) ∧
      (mfind cw2.map 0 = none → cw2.remove 0 = (cw2, none))) :=
  ⟨cw2_wf, sieve_C7 cw2_wf 0⟩

theorem sieve_C8_witness :
    ((0 : Nat) = 0 ∧
      ((SieveCache.new 0 : Except String (SieveCache Nat Nat)) =
          Except.error "capacity must be greater than 0" ∧
        SieveCache.with_evict_condition 0 pless =
          (Except.error "capacity must be greater than 0" :
            Except String (SieveCache Nat Nat)))) ∧
    ((1 : Nat) ≠ 0 ∧
      ((SieveCache.new 1 : Except String (SieveCache Nat Nat)) =
          Except.ok { map := [], head := none, tail := none, hand := none,
                      capacity := 1, len := 0, evict_condition := none } ∧
        SieveCache.with_evict_condition 1 pless =
          Except.ok { map := [], head := none, tail := none, hand := none,
                      capacity := 1, len := 0,
                      evict_condition := some pless })) :=
  ⟨⟨rfl, (sieve_C8 0 pless).1 rfl⟩, ⟨by decide, (sieve_C8 1 pless).2 (by decide)⟩⟩

theorem sieve_C9_witness :
    (mfind cw2.map 0 = some (⟨0, 10, some 1, none, false⟩ : Node Nat Nat) ∧
      ((cw2.get 0).2 = some 10 ∧ (cw2.get_mut 0).2 = some 10 ∧
        (cw2.get 0).1 = (cw2.get_mut 0).1 ∧
        visAt (cw2.get 0).1.map 0 = some true ∧
        valAt (cw2.get 0).1.map 0 = some 10 ∧
        (∀ k', k' ≠ 0 → mfind (cw2.get 0).1.map k' = mfind cw2.map k') ∧
        (cw2.get 0).1.head = cw2.head ∧ (cw2.get 0).1.tail = cw2.tail ∧
        (cw2.get 0).1.hand = cw2.hand ∧ (cw2.get 0).1.len = cw2.len)) ∧
    (mfind cw2.map 5 = none ∧
      (cw2.get 5 = (cw2, none) ∧ cw2.get_mut 5 = (cw2, none))) :=
  ⟨⟨by decide, (sieve_C9 0).1 ⟨0, 10, some 1, none, false⟩ (by decide)⟩,
    ⟨by decide, (sieve_C9 5).2 (by decide)⟩⟩

theorem sieve_C10_witness :
    (cw2.contains_key 5 = (cw2, (mfind cw2.map 5).isSome) ∧
      (cw2.contains_key 5).1 = cw2) ∧
    (mfind cw2.map 5 = none ∧ cw2.remove 5 = (cw2, none)) :=
  ⟨⟨(sieve_C10 5).1, (sieve_C10 5).2.1⟩, by decide, (sieve_C10 5).2.2 (by decide)⟩

end Sieve
